import Mathlib

/-!
Verification of the Markdown render model of this repository.

The block-level and inline-level parsers are shallowly embedded from the
MarkdownPreview component in app/_layout.tsx.  Strings are modelled as
lists of characters; each JavaScript string primitive used by the source
(split, trim, startsWith, substring, regex scans) is translated into an
executable Lean function on character lists.
-/

namespace MDSpec

abbrev Str := List Char

/-- Backtick character, written by code so that the fence marker can be built
without a backtick literal. -/
def btChar : Char := Char.ofNat 96

/-- Whitespace test modelling the JavaScript whitespace class used by
String.trim and the regex escape for whitespace (space, tab, newline,
carriage return, vertical tab, form feed). -/
def isWsChar (c : Char) : Bool :=
  c = ' ' || c = '\t' || c = '\n' || c = '\r' || c = Char.ofNat 11 || c = Char.ofNat 12

/-- Model of JavaScript String.trim. -/
def jsTrim (s : Str) : Str :=
  ((s.dropWhile isWsChar).reverse.dropWhile isWsChar).reverse

/-- Model of JavaScript String.split with a single-character separator:
n separators yield n+1 (possibly empty) parts. -/
def splitOnChar (sep : Char) : Str → List Str
  | [] => [[]]
  | c :: cs =>
    match splitOnChar sep cs with
    | [] => [[c]]
    | p :: ps => if c = sep then [] :: p :: ps else (c :: p) :: ps

/-- Rejoin parts with a single-character separator (inverse of splitOnChar). -/
def joinWith (sep : Char) : List Str → Str
  | [] => []
  | [s] => s
  | s :: rest => s ++ sep :: joinWith sep rest

theorem splitOnChar_ne_nil (sep : Char) (s : Str) : splitOnChar sep s ≠ [] := by
  cases s with
  | nil => simp [splitOnChar]
  | cons c cs =>
    simp only [splitOnChar]
    cases h : splitOnChar sep cs with
    | nil => simp
    | cons p ps =>
      by_cases hc : c = sep <;> simp [hc]

theorem joinWith_splitOnChar (sep : Char) (s : Str) :
    joinWith sep (splitOnChar sep s) = s := by
  induction s with
  | nil => simp [splitOnChar, joinWith]
  | cons c cs ih =>
    simp only [splitOnChar]
    cases h : splitOnChar sep cs with
    | nil => exact absurd h (splitOnChar_ne_nil sep cs)
    | cons p ps =>
      rw [h] at ih
      by_cases hc : c = sep
      · subst hc
        simp only [if_pos rfl]
        cases ps with
        | nil => simp_all [joinWith]
        | cons q qs => simp_all [joinWith]
      · simp only [if_neg hc]
        cases ps with
        | nil => simp_all [joinWith]
        | cons q qs => simp_all [joinWith]

/-! ### Block-level data model

One Block per element pushed by parseMarkdown in app/_layout.tsx, together
with the source lines the corresponding branch consumed. -/

inductive Block where
  | hr (raw : List Str)
  | quote (body : Str) (raw : List Str)
  | table (header : List Str) (rows : List (List Str)) (raw : List Str)
  | heading (level : Nat) (text : Str) (raw : List Str)
  | checkbox (checked : Bool) (text : Str) (raw : List Str)
  | ordered (num : Str) (text : Str) (raw : List Str)
  | bullet (text : Str) (raw : List Str)
  | codeblock (body : Str) (raw : List Str)
  | blank (raw : List Str)
  | para (text : Str) (raw : List Str)
deriving DecidableEq, Repr

def Block.rawLines : Block → List Str
  | .hr r => r
  | .quote _ r => r
  | .table _ _ r => r
  | .heading _ _ r => r
  | .checkbox _ _ r => r
  | .ordered _ _ r => r
  | .bullet _ r => r
  | .codeblock _ r => r
  | .blank r => r
  | .para _ r => r

/-- Horizontal-rule test from the source: the trimmed line matches the
regular expression anchored on both sides, three or more characters each
drawn from dash, star, underscore (mixtures included). -/
def hrLineCond (t : Str) : Bool :=
  decide (3 ≤ t.length) && t.all (fun c => c = '-' || c = '*' || c = '_')

/-- Table-start test from the source: the trimmed line contains a pipe and
splitting it on pipes yields at least three parts. -/
def tableLineCond (t : Str) : Bool :=
  t.contains '|' && decide (3 ≤ (splitOnChar '|' t).length)

/-- Cells of a table row from the source: split on pipes, trim each part,
keep only the non-empty parts. -/
def rowCells (l : Str) : List Str :=
  ((splitOnChar '|' l).map jsTrim).filter (fun c => !c.isEmpty)

/-- Table separator-row test from the source: non-empty and every character
is whitespace, pipe, colon or dash. -/
def sepLineCond (t : Str) : Bool :=
  !t.isEmpty && t.all (fun c => isWsChar c || c = '|' || c = ':' || c = '-')

/-- Checklist-item test and capture from the source regex: dash, one or more
whitespace, a bracketed space or x, then optional whitespace and the text. -/
def parseCheckbox (t : Str) : Option (Bool × Str) :=
  match t with
  | '-' :: rest =>
    if (rest.takeWhile isWsChar).isEmpty then none
    else
      match rest.dropWhile isWsChar with
      | '[' :: m :: ']' :: r2 =>
        if m = ' ' || m = 'x' then some (m = 'x', r2.dropWhile isWsChar) else none
      | _ => none
  | _ => none

/-- Ordered-list-item test and capture from the source regex: one or more
digits, a dot, one or more whitespace, then the text. -/
def parseOrdered (t : Str) : Option (Str × Str) :=
  let ds := t.takeWhile (fun c => c.isDigit)
  if ds.isEmpty then none
  else
    match t.dropWhile (fun c => c.isDigit) with
    | '.' :: r2 =>
      if (r2.takeWhile isWsChar).isEmpty then none
      else some (ds, r2.dropWhile isWsChar)
    | _ => none

/-- Code-fence marker (three backticks). -/
def fenceChars : Str := [btChar, btChar, btChar]

def quoteLine (x : Str) : Bool := List.isPrefixOf ['>', ' '] (jsTrim x)

def pipeLine (x : Str) : Bool := (jsTrim x).contains '|'

def notFenceLine (x : Str) : Bool := !List.isPrefixOf fenceChars x

/-- One iteration of the while loop of parseMarkdown in app/_layout.tsx:
from the current line and the remaining lines, produce the block the matching
branch pushes and the lines left for the next iteration.  The branch order
is that of the source: horizontal rule, blockquote, table, headings (three,
two, one hashes), checklist, ordered list, bullet list, code fence, blank
line, paragraph. -/
def blockStep (l : Str) (ls : List Str) : Block × List Str :=
  if hrLineCond (jsTrim l) then (Block.hr [l], ls)
  else if List.isPrefixOf ['>', ' '] (jsTrim l) then
    (Block.quote (joinWith '\n' ((l :: ls.takeWhile quoteLine).map (fun x => (jsTrim x).drop 2)))
      (l :: ls.takeWhile quoteLine), ls.dropWhile quoteLine)
  else if tableLineCond (jsTrim l) then
    match ls with
    | [] => (Block.table (rowCells (jsTrim l)) [] [l], [])
    | x :: xs =>
      if sepLineCond (jsTrim x) then
        (Block.table (rowCells (jsTrim l))
          (((xs.takeWhile pipeLine).map rowCells).filter (fun r => !r.isEmpty))
          (l :: x :: xs.takeWhile pipeLine), xs.dropWhile pipeLine)
      else
        (Block.table (rowCells (jsTrim l))
          ((((x :: xs).takeWhile pipeLine).map rowCells).filter (fun r => !r.isEmpty))
          (l :: (x :: xs).takeWhile pipeLine), (x :: xs).dropWhile pipeLine)
  else if List.isPrefixOf ('#' :: '#' :: '#' :: [' ']) l then (Block.heading 3 (l.drop 4) [l], ls)
  else if List.isPrefixOf ('#' :: '#' :: [' ']) l then (Block.heading 2 (l.drop 3) [l], ls)
  else if List.isPrefixOf ('#' :: [' ']) l then (Block.heading 1 (l.drop 2) [l], ls)
  else
    match parseCheckbox (jsTrim l) with
    | some p => (Block.checkbox p.1 p.2 [l], ls)
    | none =>
      match parseOrdered (jsTrim l) with
      | some p => (Block.ordered p.1 p.2 [l], ls)
      | none =>
        if List.isPrefixOf ['-', ' '] (jsTrim l) || List.isPrefixOf ['*', ' '] (jsTrim l) then
          (Block.bullet ((jsTrim l).drop 2) [l], ls)
        else if List.isPrefixOf fenceChars l then
          match ls.dropWhile notFenceLine with
          | [] => (Block.codeblock (joinWith '\n' (ls.takeWhile notFenceLine))
              (l :: ls.takeWhile notFenceLine), [])
          | cl :: rest => (Block.codeblock (joinWith '\n' (ls.takeWhile notFenceLine))
              (l :: (ls.takeWhile notFenceLine ++ [cl])), rest)
        else if (jsTrim l).isEmpty then (Block.blank [l], ls)
        else (Block.para l [l], ls)

theorem length_dropWhile_le' {α : Type} (p : α → Bool) (l : List α) :
    (l.dropWhile p).length ≤ l.length := by
  induction l with
  | nil => simp
  | cons a l ih =>
    by_cases h : p a
    · simp only [List.dropWhile_cons, h, if_true, List.length_cons]
      omega
    · simp [List.dropWhile_cons, h]

theorem blockStep_rest_le (l : Str) (ls : List Str) :
    ((blockStep l ls).2).length ≤ ls.length := by
  have hq := length_dropWhile_le' quoteLine ls
  have hf := length_dropWhile_le' notFenceLine ls
  unfold blockStep
  split
  · simp
  split
  · simpa using hq
  split
  · split
    · simp
    next x xs =>
      have h1 := length_dropWhile_le' pipeLine xs
      have h2 := length_dropWhile_le' pipeLine (x :: xs)
      split
      · exact le_trans h1 (Nat.le_succ _)
      · simpa using h2
  split
  · simp
  split
  · simp
  split
  · simp
  split
  · simp
  split
  · simp
  split
  · simp
  split
  next heq =>
    split
    · simp
    next cl rest hdrop =>
      rw [hdrop] at hf
      simp only [List.length_cons] at hf
      simpa using Nat.le_of_succ_le hf
  split
  · simp
  · simp

/-- Fuel-indexed form of the block loop; the fuel is the number of lines,
which suffices because every iteration consumes at least one line. -/
def parseBlocksFuel : Nat → List Str → List Block
  | 0, _ => []
  | _ + 1, [] => []
  | n + 1, l :: ls => (blockStep l ls).1 :: parseBlocksFuel n (blockStep l ls).2

def parseBlocks (L : List Str) : List Block :=
  parseBlocksFuel L.length L

theorem parseBlocksFuel_congr :
    ∀ (n m : Nat) (L : List Str), L.length ≤ n → L.length ≤ m →
      parseBlocksFuel n L = parseBlocksFuel m L := by
  intro n
  induction n with
  | zero =>
    intro m L h _
    cases L with
    | nil => cases m <;> rfl
    | cons l ls => simp at h
  | succ n ih =>
    intro m L h hm
    cases L with
    | nil => cases m <;> rfl
    | cons l ls =>
      cases m with
      | zero => simp at hm
      | succ m =>
        simp only [parseBlocksFuel]
        congr 1
        apply ih
        · refine le_trans (blockStep_rest_le l ls) ?_
          simp only [List.length_cons] at h
          omega
        · refine le_trans (blockStep_rest_le l ls) ?_
          simp only [List.length_cons] at hm
          omega

theorem parseBlocks_nil : parseBlocks [] = [] := rfl

theorem parseBlocks_cons (l : Str) (ls : List Str) :
    parseBlocks (l :: ls) = (blockStep l ls).1 :: parseBlocks (blockStep l ls).2 := by
  unfold parseBlocks
  simp only [List.length_cons, parseBlocksFuel]
  congr 1
  exact parseBlocksFuel_congr ls.length _ _ (blockStep_rest_le l ls) le_rfl

/-- The top-level parse of app/_layout.tsx: split the input on newlines and
run the block loop. -/
def parseMarkdown (s : Str) : List Block :=
  parseBlocks (splitOnChar '\n' s)

/-! ### Reconstruction of the source from rawLines -/

theorem blockStep_reconstruct (l : Str) (ls : List Str) :
    (blockStep l ls).1.rawLines ++ (blockStep l ls).2 = l :: ls := by
  unfold blockStep
  split
  · simp [Block.rawLines]
  split
  · simp [Block.rawLines, List.takeWhile_append_dropWhile]
  split
  · split
    · simp [Block.rawLines]
    next x xs =>
      split
      · simp [Block.rawLines, List.takeWhile_append_dropWhile]
      · simp [Block.rawLines, List.takeWhile_append_dropWhile]
  split
  · simp [Block.rawLines]
  split
  · simp [Block.rawLines]
  split
  · simp [Block.rawLines]
  split
  · simp [Block.rawLines]
  split
  · simp [Block.rawLines]
  split
  · simp [Block.rawLines]
  split
  · split
    next hdrop =>
      have hw := List.takeWhile_append_dropWhile (p := notFenceLine) (l := ls)
      rw [hdrop, List.append_nil] at hw
      simp only [Block.rawLines, List.append_nil, hw]
    next cl rest hdrop =>
      have hw := List.takeWhile_append_dropWhile (p := notFenceLine) (l := ls)
      rw [hdrop] at hw
      simp only [Block.rawLines, List.cons_append, List.append_assoc, List.singleton_append,
        List.nil_append, hw]
  split
  · simp [Block.rawLines]
  · simp [Block.rawLines]

theorem parseBlocks_rawLines (L : List Str) :
    ((parseBlocks L).map Block.rawLines).flatten = L := by
  have key : ∀ (n : Nat) (L : List Str), L.length ≤ n →
      ((parseBlocks L).map Block.rawLines).flatten = L := by
    intro n
    induction n with
    | zero =>
      intro L h
      cases L with
      | nil => simp [parseBlocks_nil]
      | cons l ls => simp at h
    | succ n ih =>
      intro L h
      cases L with
      | nil => simp [parseBlocks_nil]
      | cons l ls =>
        rw [parseBlocks_cons]
        simp only [List.map_cons, List.flatten_cons]
        have hrest : ((blockStep l ls).2).length ≤ n := by
          have := blockStep_rest_le l ls
          simp only [List.length_cons] at h
          omega
        rw [ih _ hrest]
        exact blockStep_reconstruct l ls
  exact key L.length L le_rfl

/-- C2: the block pass consumes every source line exactly once and in order:
concatenating the rawLines of all blocks produced by parse, in block order,
rejoined with newline, reproduces the input string exactly. -/
theorem parse_rawLines_reconstruct (s : Str) :
    joinWith '\n' (((parseMarkdown s).map Block.rawLines).flatten) = s := by
  unfold parseMarkdown
  rw [parseBlocks_rawLines, joinWith_splitOnChar]

/-! ### C5: parsing the empty string -/

/-- C5 counterexample: parsing the empty string does not return an empty
block sequence; splitting the empty string on newline yields one empty line,
which the blank-line branch turns into one Blank block. -/
theorem parse_empty_counterexample :
    parseMarkdown [] = [Block.blank [[]]] ∧ ¬ parseMarkdown [] = ([] : List Block) := by
  refine ⟨by decide, by decide⟩

/-- C5 amended: parsing the empty string returns exactly one Blank block
whose raw line is the single empty line produced by the newline split. -/
theorem parse_empty_amended : parseMarkdown [] = [Block.blank [[]]] := by
  decide

/-! ### C8: the horizontal-rule condition -/

/-- Follows the claim wording for C8 (spec side): the trimmed text consists
of three or more repeated characters that are all dash, all star, or all
underscore. -/
def hrAllSameCond (t : Str) : Bool :=
  decide (3 ≤ t.length) &&
    (t.all (fun c => c = '-') || t.all (fun c => c = '*') || t.all (fun c => c = '_'))

/-- C8 counterexample: the line of dash, star, underscore is consumed as a
HorizontalRule block by the source, although its characters are not all the
same, so the claimed condition does not hold of it. -/
theorem hr_mixed_counterexample :
    parseMarkdown ['-', '*', '_'] = [Block.hr [['-', '*', '_']]] ∧
      hrAllSameCond (jsTrim ['-', '*', '_']) = false := by
  refine ⟨by decide, by decide⟩

/-! ### C9: the table-start condition -/

def isTableBlock : Block → Bool
  | .table _ _ _ => true
  | _ => false

def tableHeaderOf : Block → List Str
  | .table h _ _ => h
  | _ => []

/-- Follows the claim wording for C9 (spec side): splitting the trimmed line
on pipes yields at least three non-empty trimmed cells. -/
def tableSpecCellCond (t : Str) : Bool :=
  t.contains '|' &&
    decide (3 ≤ (((splitOnChar '|' t).map jsTrim).filter (fun c => !c.isEmpty)).length)

/-- C9 counterexample: the line holding a single pipe-wrapped cell is
consumed as a Table header by the source (splitting it on pipes yields the
three parts empty, x, empty), although it has only one non-empty trimmed
cell, so the claimed condition does not hold of it. -/
theorem table_start_counterexample :
    parseMarkdown ['|', 'x', '|'] = [Block.table [['x']] [] [['|', 'x', '|']]] ∧
      tableSpecCellCond (jsTrim ['|', 'x', '|']) = false := by
  refine ⟨by decide, by decide⟩

/-- C9 amended: a line not claimed by the horizontal-rule or blockquote
rules starts a Table block as its header row exactly when its trimmed text
contains a pipe and splitting it on pipes yields at least three parts
(empty parts included); the header row consists of the split parts trimmed,
with every empty cell dropped. -/
theorem table_start_iff (l : Str) (ls : List Str)
    (h1 : hrLineCond (jsTrim l) = false)
    (h2 : List.isPrefixOf ['>', ' '] (jsTrim l) = false) :
    (isTableBlock (blockStep l ls).1 = true ↔ tableLineCond (jsTrim l) = true) ∧
      (tableLineCond (jsTrim l) = true →
        tableHeaderOf (blockStep l ls).1 = rowCells (jsTrim l)) := by
  unfold blockStep
  rw [h1, h2]
  simp only [Bool.false_eq_true, if_false]
  by_cases ht : tableLineCond (jsTrim l) = true
  · rw [if_pos ht]
    refine ⟨?_, fun _ => ?_⟩
    · simp only [ht, iff_true]
      split
      · simp [isTableBlock]
      · split
        · simp [isTableBlock]
        · simp [isTableBlock]
    · split
      · simp [tableHeaderOf]
      · split
        · simp [tableHeaderOf]
        · simp [tableHeaderOf]
  · rw [if_neg ht]
    refine ⟨⟨fun hfalse => ?_, fun hc => absurd hc ht⟩, fun hc => absurd hc ht⟩
    exfalso
    repeat' split at hfalse
    all_goals simp_all [isTableBlock]

/-- C9 witness: instantiation of the amended table theorem at a concrete
three-cell header line. -/
theorem table_start_iff_witness :
    hrLineCond (jsTrim ['a', '|', 'b', '|', 'c']) = false ∧
      List.isPrefixOf ['>', ' '] (jsTrim ['a', '|', 'b', '|', 'c']) = false ∧
      (isTableBlock (blockStep ['a', '|', 'b', '|', 'c'] []).1 = true ↔
        tableLineCond (jsTrim ['a', '|', 'b', '|', 'c']) = true) ∧
      (tableLineCond (jsTrim ['a', '|', 'b', '|', 'c']) = true →
        tableHeaderOf (blockStep ['a', '|', 'b', '|', 'c'] []).1 =
          rowCells (jsTrim ['a', '|', 'b', '|', 'c'])) := by
  refine ⟨by decide, by decide, ?_⟩
  exact table_start_iff ['a', '|', 'b', '|', 'c'] [] (by decide) (by decide)

/-! ### Spec-modelled block step (heading rule with level 4)

The repository's components/markdown-preview.tsx (the parser variant with
four heading levels) is not among the available sources; only its
documentation and its caller are.  The step below is modelled from the
spec's block-level algorithm, rules 1 to 10 in their stated priority
order. -/

def dropEdgeEmptyCells (cells : List Str) : List Str :=
  ((cells.dropWhile (fun c => c.isEmpty)).reverse.dropWhile (fun c => c.isEmpty)).reverse

/-- Modelled from the spec: table cells of a line are the pipe-split parts,
each trimmed, with empty cells from the split artifacts at the edges
dropped. -/
def specCells (t : Str) : List Str :=
  dropEdgeEmptyCells ((splitOnChar '|' t).map jsTrim)

/-- Modelled from the spec: one step of the block-level algorithm of
components/markdown-preview.tsx (absent from src/), following the spec's
rules in priority order: horizontal rule (all one repeated character),
blockquote, table (three or more non-empty trimmed cells), headings of
levels four, three, two, one (longest prefix first), checklist item,
ordered list item, unordered list item, code fence, blank line,
paragraph. -/
def specBlockStep (l : Str) (ls : List Str) : Block × List Str :=
  if hrAllSameCond (jsTrim l) then (Block.hr [l], ls)
  else if List.isPrefixOf ['>', ' '] (jsTrim l) then
    (Block.quote (joinWith '\n' ((l :: ls.takeWhile quoteLine).map (fun x => (jsTrim x).drop 2)))
      (l :: ls.takeWhile quoteLine), ls.dropWhile quoteLine)
  else if tableSpecCellCond (jsTrim l) then
    match ls with
    | [] => (Block.table (specCells (jsTrim l)) [] [l], [])
    | x :: xs =>
      if sepLineCond (jsTrim x) then
        (Block.table (specCells (jsTrim l)) ((xs.takeWhile pipeLine).map specCells)
          (l :: x :: xs.takeWhile pipeLine), xs.dropWhile pipeLine)
      else
        (Block.table (specCells (jsTrim l)) (((x :: xs).takeWhile pipeLine).map specCells)
          (l :: (x :: xs).takeWhile pipeLine), (x :: xs).dropWhile pipeLine)
  else if List.isPrefixOf ['#', '#', '#', '#', ' '] l then (Block.heading 4 (l.drop 5) [l], ls)
  else if List.isPrefixOf ['#', '#', '#', ' '] l then (Block.heading 3 (l.drop 4) [l], ls)
  else if List.isPrefixOf ['#', '#', ' '] l then (Block.heading 2 (l.drop 3) [l], ls)
  else if List.isPrefixOf ['#', ' '] l then (Block.heading 1 (l.drop 2) [l], ls)
  else
    match parseCheckbox (jsTrim l) with
    | some p => (Block.checkbox p.1 p.2 [l], ls)
    | none =>
      match parseOrdered (jsTrim l) with
      | some p => (Block.ordered p.1 p.2 [l], ls)
      | none =>
        if List.isPrefixOf ['-', ' '] (jsTrim l) || List.isPrefixOf ['*', ' '] (jsTrim l) then
          (Block.bullet ((jsTrim l).drop 2) [l], ls)
        else if List.isPrefixOf fenceChars l then
          match ls.dropWhile notFenceLine with
          | [] => (Block.codeblock (joinWith '\n' (ls.takeWhile notFenceLine))
              (l :: ls.takeWhile notFenceLine), [])
          | cl :: rest => (Block.codeblock (joinWith '\n' (ls.takeWhile notFenceLine))
              (l :: (ls.takeWhile notFenceLine ++ [cl])), rest)
        else if (jsTrim l).isEmpty then (Block.blank [l], ls)
        else (Block.para l [l], ls)

def isHeadingBlock : Block → Bool
  | .heading _ _ _ => true
  | _ => false

/-- C6 counterexample: a heading-prefixed line that also satisfies the
table condition is claimed by the earlier table rule, so it does not
produce a Heading block as the claim demands. -/
theorem heading_table_counterexample :
    specBlockStep ['#', ' ', 'a', '|', 'b', '|', 'c'] [] =
        (Block.table [['#', ' ', 'a'], ['b'], ['c']] [] [['#', ' ', 'a', '|', 'b', '|', 'c']], []) ∧
      isHeadingBlock (specBlockStep ['#', ' ', 'a', '|', 'b', '|', 'c'] []).1 = false := by
  refine ⟨by decide, by decide⟩

theorem dropWhile_append_single {α : Type} (P : α → Bool) (c : α) (h : P c = false)
    (l : List α) : List.dropWhile P (l ++ [c]) = List.dropWhile P l ++ [c] := by
  induction l with
  | nil => simp [List.dropWhile_cons, h]
  | cons a as ih =>
    by_cases ha : P a
    · simp [List.dropWhile_cons, ha, ih]
    · simp [List.dropWhile_cons, ha]

theorem jsTrim_cons_not_ws (c : Char) (h : isWsChar c = false) (xs : Str) :
    jsTrim (c :: xs) = c :: ((xs.reverse.dropWhile isWsChar).reverse) := by
  unfold jsTrim
  rw [List.dropWhile_cons, h]
  simp only [Bool.false_eq_true, if_false, List.reverse_cons]
  rw [dropWhile_append_single isWsChar c h]
  simp

/-- C6 amended: provided the trimmed line does not satisfy the spec's
table condition, a line starting with four, three, two or one hashes
followed by a space (checked longest-prefix-first; the four prefixes are
mutually exclusive) produces exactly one Heading block of level 4, 3, 2
or 1 with the remainder of the line as payload, consuming exactly one
line. -/
theorem specHeading_rule (l : Str) (ls : List Str)
    (hnt : tableSpecCellCond (jsTrim l) = false) :
    (List.isPrefixOf ['#', '#', '#', '#', ' '] l = true →
      specBlockStep l ls = (Block.heading 4 (l.drop 5) [l], ls)) ∧
    (List.isPrefixOf ['#', '#', '#', ' '] l = true →
      specBlockStep l ls = (Block.heading 3 (l.drop 4) [l], ls)) ∧
    (List.isPrefixOf ['#', '#', ' '] l = true →
      specBlockStep l ls = (Block.heading 2 (l.drop 3) [l], ls)) ∧
    (List.isPrefixOf ['#', ' '] l = true →
      specBlockStep l ls = (Block.heading 1 (l.drop 2) [l], ls)) := by
  have hhash : isWsChar '#' = false := by decide
  refine ⟨fun hp => ?_, fun hp => ?_, fun hp => ?_, fun hp => ?_⟩
  all_goals
    rw [List.isPrefixOf_iff_prefix] at hp
    obtain ⟨rest, rfl⟩ := hp
    rw [specBlockStep.eq_def]
    simp only [List.cons_append, List.nil_append] at hnt ⊢
    rw [jsTrim_cons_not_ws '#' hhash] at hnt ⊢
    simp only [List.reverse_cons, List.append_assoc, List.nil_append, List.singleton_append,
      List.cons_append] at hnt
    simp [hrAllSameCond, List.isPrefixOf, hnt]

/-- C6 witness: instantiation of the amended heading theorem at concrete
heading lines of each level. -/
theorem specHeading_rule_witness :
    tableSpecCellCond (jsTrim ['#', '#', '#', '#', ' ', 'T']) = false ∧
      specBlockStep ['#', '#', '#', '#', ' ', 'T'] [] =
        (Block.heading 4 ['T'] [['#', '#', '#', '#', ' ', 'T']], []) := by
  refine ⟨by decide, ?_⟩
  exact (specHeading_rule ['#', '#', '#', '#', ' ', 'T'] [] (by decide)).1 (by decide)

/-- C8 amended: a line is consumed as a HorizontalRule block, consuming
exactly one line, if and only if its trimmed text has length at least three
and every character is a dash, a star or an underscore (mixtures allowed). -/
theorem hr_block_iff (l : Str) (ls : List Str) :
    blockStep l ls = (Block.hr [l], ls) ↔ hrLineCond (jsTrim l) = true := by
  constructor
  · intro heq
    by_contra hc
    rw [Bool.not_eq_true] at hc
    unfold blockStep at heq
    rw [hc] at heq
    simp only [Bool.false_eq_true, if_false] at heq
    repeat' split at heq
    all_goals simp_all
  · intro h
    unfold blockStep
    rw [h]
    simp

/-! ### Inline-level data model

parseInlineElements in app/_layout.tsx collects regex matches of five
families (image, link, inline code, bold, italic), sorts them by index,
resolves overlaps keeping the longer match, and walks the text emitting
plain-text gaps and typed spans. -/

inductive Span where
  | plain (text : Str)
  | bold (text : Str)
  | ital (text : Str)
  | code (text : Str)
  | strike (text : Str)
  | link (text url : Str)
  | image (alt url : Str)
deriving DecidableEq, Repr

inductive MType where
  | image | link | code | bold | ital | strike
deriving DecidableEq, Repr

/-- One collected regex match: family, start index, length, and up to two
captured payloads (display text and url for image and link). -/
structure RawMatch where
  tp : MType
  index : Nat
  len : Nat
  d1 : Str
  d2 : Str
deriving DecidableEq, Repr

/-- Split a string at the first occurrence of a character: the part before
(free of that character) and the part after. -/
def splitAtChar (c : Char) : Str → Option (Str × Str)
  | [] => none
  | a :: as =>
    if a = c then some ([], as)
    else (splitAtChar c as).map (fun p => (a :: p.1, p.2))

/-- The image regex: bang, bracketed alt free of closing brackets (possibly
empty), parenthesised url free of closing parens (non-empty). -/
def tryImageAt (_ : Option Char) (cs : Str) : Option (Nat × Str × Str) :=
  match cs with
  | a :: b :: rest =>
    if a = '!' && b = '[' then
      match splitAtChar ']' rest with
      | none => none
      | some (alt, r1) =>
        match r1 with
        | c :: r2 =>
          if c = '(' then
            match splitAtChar ')' r2 with
            | none => none
            | some (url, _) =>
              if url.isEmpty then none else some (alt.length + url.length + 5, alt, url)
          else none
        | [] => none
    else none
  | _ => none

/-- The link regex: bracketed display text (non-empty, free of closing
brackets), parenthesised url (non-empty, free of closing parens). -/
def tryLinkAt (_ : Option Char) (cs : Str) : Option (Nat × Str × Str) :=
  match cs with
  | a :: rest =>
    if a = '[' then
      match splitAtChar ']' rest with
      | none => none
      | some (txt, r1) =>
        if txt.isEmpty then none
        else
          match r1 with
          | c :: r2 =>
            if c = '(' then
              match splitAtChar ')' r2 with
              | none => none
              | some (url, _) =>
                if url.isEmpty then none else some (txt.length + url.length + 4, txt, url)
            else none
          | [] => none
    else none
  | [] => none

/-- The inline-code regex: backtick, non-empty content free of backticks,
backtick. -/
def tryCodeAt (_ : Option Char) (cs : Str) : Option (Nat × Str × Str) :=
  match cs with
  | a :: rest =>
    if a = btChar then
      match splitAtChar btChar rest with
      | none => none
      | some (body, _) => if body.isEmpty then none else some (body.length + 2, body, [])
    else none
  | [] => none

/-- Scan for the first occurrence of a doubled delimiter character,
failing on a newline (the dot of the lazy group does not cross lines):
returns the characters before the pair and the characters after it. -/
def pairScan (d : Char) : Str → Option (Str × Str)
  | a :: b :: rest =>
    if a = d && b = d then some ([], rest)
    else if a = '\n' then none
    else (pairScan d (b :: rest)).map (fun p => (a :: p.1, p.2))
  | _ => none

/-- Lazy non-empty content followed by the doubled delimiter: one forced
first character, then the scan for the first delimiter pair. -/
def findPairEnd (d : Char) : Str → Option (Str × Str)
  | [] => none
  | c :: cs =>
    if c = '\n' then none
    else (pairScan d cs).map (fun p => (c :: p.1, p.2))

/-- The bold regex: a doubled star or doubled underscore delimiter, lazy
non-empty content, the same delimiter again. -/
def tryBoldAt (_ : Option Char) (cs : Str) : Option (Nat × Str × Str) :=
  match cs with
  | a :: b :: rest =>
    if (a = '*' && b = '*') || (a = '_' && b = '_') then
      (findPairEnd a rest).map (fun p => (p.1.length + 4, p.1, []))
    else none
  | _ => none

/-- The strikethrough regex (used by the spec-modelled inline pass): a
doubled tilde, lazy non-empty content, a doubled tilde. -/
def tryStrikeAt (_ : Option Char) (cs : Str) : Option (Nat × Str × Str) :=
  match cs with
  | a :: b :: rest =>
    if a = '~' && b = '~' then
      (findPairEnd '~' rest).map (fun p => (p.1.length + 4, p.1, []))
    else none
  | _ => none

/-- The italic regex: a single star or underscore not preceded by the same
character, lazy non-empty content free of that character and of newlines,
the closing character not followed by the same character. -/
def tryItalicAt (prev : Option Char) (cs : Str) : Option (Nat × Str × Str) :=
  match cs with
  | c :: rest =>
    if c = '*' || c = '_' then
      if prev = some c then none
      else
        match splitAtChar c rest with
        | none => none
        | some (content, r2) =>
          if content.isEmpty || content.contains '\n' then none
          else if r2.head? = some c then none
          else some (content.length + 2, content, [])
    else none
  | [] => none

/-- Fuel-indexed global regex scan: at each position try the pattern; on a
match record it and continue after it (the regex lastIndex jump), otherwise
advance one character.  The previous character of the original text is
supplied for lookbehinds. -/
def scanFromFuel (tryAt : Option Char → List Char → Option (Nat × Str × Str)) (tp : MType)
    (full : Str) : Nat → Nat → List Char → List RawMatch
  | 0, _, _ => []
  | _ + 1, _, [] => []
  | fuel + 1, i, c :: cs =>
    match tryAt (if i = 0 then none else full[i - 1]?) (c :: cs) with
    | some (len, d1, d2) =>
      ⟨tp, i, len, d1, d2⟩ :: scanFromFuel tryAt tp full fuel (i + len) (List.drop (len - 1) cs)
    | none => scanFromFuel tryAt tp full fuel (i + 1) cs

def scanFrom (tryAt : Option Char → List Char → Option (Nat × Str × Str)) (tp : MType)
    (full : Str) (i : Nat) (cs : List Char) : List RawMatch :=
  scanFromFuel tryAt tp full cs.length i cs

theorem scanFromFuel_congr (tryAt : Option Char → List Char → Option (Nat × Str × Str))
    (tp : MType) (full : Str) :
    ∀ (n m i : Nat) (cs : List Char), cs.length ≤ n → cs.length ≤ m →
      scanFromFuel tryAt tp full n i cs = scanFromFuel tryAt tp full m i cs := by
  intro n
  induction n with
  | zero =>
    intro m i cs h _
    cases cs with
    | nil => cases m <;> rfl
    | cons c cs => simp at h
  | succ n ih =>
    intro m i cs h hm
    cases cs with
    | nil => cases m <;> rfl
    | cons c cs =>
      cases m with
      | zero => simp at hm
      | succ m =>
        simp only [List.length_cons] at h hm
        simp only [scanFromFuel]
        cases htry : tryAt (if i = 0 then none else full[i - 1]?) (c :: cs) with
        | none => exact ih m (i + 1) cs (by omega) (by omega)
        | some r =>
          obtain ⟨len, d1, d2⟩ := r
          simp only []
          congr 1
          exact ih m (i + len) (List.drop (len - 1) cs)
            (by simp only [List.length_drop]; omega)
            (by simp only [List.length_drop]; omega)

theorem scanFrom_nil (tryAt : Option Char → List Char → Option (Nat × Str × Str))
    (tp : MType) (full : Str) (i : Nat) : scanFrom tryAt tp full i [] = [] := rfl

theorem scanFrom_cons_none (tryAt : Option Char → List Char → Option (Nat × Str × Str))
    (tp : MType) (full : Str) (i : Nat) (c : Char) (cs : List Char)
    (h : tryAt (if i = 0 then none else full[i - 1]?) (c :: cs) = none) :
    scanFrom tryAt tp full i (c :: cs) = scanFrom tryAt tp full (i + 1) cs := by
  unfold scanFrom
  simp only [List.length_cons, scanFromFuel, h]

theorem scanFrom_cons_some (tryAt : Option Char → List Char → Option (Nat × Str × Str))
    (tp : MType) (full : Str) (i : Nat) (c : Char) (cs : List Char)
    (len : Nat) (d1 d2 : Str)
    (h : tryAt (if i = 0 then none else full[i - 1]?) (c :: cs) = some (len, d1, d2)) :
    scanFrom tryAt tp full i (c :: cs) =
      ⟨tp, i, len, d1, d2⟩ :: scanFrom tryAt tp full (i + len) (List.drop (len - 1) cs) := by
  unfold scanFrom
  simp only [List.length_cons, scanFromFuel, h]
  congr 1
  exact scanFromFuel_congr tryAt tp full cs.length _ _ _
    (by simp only [List.length_drop]; omega) le_rfl

/-! ### The five match families of parseInlineElements -/

def imageMatches (t : Str) : List RawMatch := scanFrom tryImageAt .image t 0 t

/-- Link matches: the scan runs like the others (skipped matches still
advance the regex lastIndex), and a match whose bracket is immediately
preceded by a bang is discarded because it belongs to an image. -/
def linkMatches (t : Str) : List RawMatch :=
  (scanFrom tryLinkAt .link t 0 t).filter
    (fun m => !(decide (1 ≤ m.index) && (t[m.index - 1]? == some '!')))

def codeMatches (t : Str) : List RawMatch := scanFrom tryCodeAt .code t 0 t

def boldMatches (t : Str) : List RawMatch := scanFrom tryBoldAt .bold t 0 t

/-- Does position i fall inside the half-open range of one of the matches? -/
def startInside (ms : List RawMatch) (i : Nat) : Bool :=
  ms.any (fun m => decide (m.index ≤ i) && decide (i < m.index + m.len))

/-- Italic matches: collected like the others, then those whose start falls
inside an already collected match are discarded (the isPartOfOther test of
the source, run against the image, link, code and bold matches). -/
def italMatches (t : Str) (earlier : List RawMatch) : List RawMatch :=
  (scanFrom tryItalicAt .ital t 0 t).filter (fun m => !startInside earlier m.index)

/-- All matches of the source inline pass, in registration order: image,
link, code, bold, italic. -/
def collectMatches (t : Str) : List RawMatch :=
  imageMatches t ++ linkMatches t ++ codeMatches t ++ boldMatches t ++
    italMatches t (imageMatches t ++ linkMatches t ++ codeMatches t ++ boldMatches t)

def idxLe (a b : RawMatch) : Prop := a.index ≤ b.index

instance : DecidableRel idxLe := fun a b => Nat.decLe a.index b.index

instance : IsTotal RawMatch idxLe := ⟨fun a b => Nat.le_total a.index b.index⟩

instance : IsTrans RawMatch idxLe := ⟨fun _ _ _ => Nat.le_trans⟩

/-- Stable ascending sort by match index (the JavaScript sort on index). -/
def sortByIdx (ms : List RawMatch) : List RawMatch := List.insertionSort idxLe ms

/-- The overlap test of the source filter, on half-open index ranges. -/
def jsOverlap (a b : RawMatch) : Bool :=
  (decide (b.index ≤ a.index) && decide (a.index < b.index + b.len)) ||
    (decide (a.index ≤ b.index) && decide (b.index < a.index + a.len))

/-- Inner loop of the source overlap filter: find the first entry of the
kept list that overlaps the candidate; if the candidate is longer it
replaces that entry, otherwise the entry stays; entries after the first
overlap are not revisited.  Returns none when no entry overlaps. -/
def resolveOne (c : RawMatch) : List RawMatch → Option (List RawMatch)
  | [] => none
  | e :: rest =>
    if jsOverlap c e then some ((if e.len < c.len then c else e) :: rest)
    else (resolveOne c rest).map (fun fs => e :: fs)

def filterStep (fs : List RawMatch) (c : RawMatch) : List RawMatch :=
  match resolveOne c fs with
  | some fs' => fs'
  | none => fs ++ [c]

def overlapFilter (ms : List RawMatch) : List RawMatch := ms.foldl filterStep []

/-- The sorted, overlap-filtered, re-sorted match list the emission walks. -/
def filteredSorted (t : Str) : List RawMatch :=
  sortByIdx (overlapFilter (sortByIdx (collectMatches t)))

def toSpan (m : RawMatch) : Span :=
  match m.tp with
  | .image => .image m.d1 m.d2
  | .link => .link m.d1 m.d2
  | .code => .code m.d1
  | .bold => .bold m.d1
  | .ital => .ital m.d1
  | .strike => .strike m.d1

/-- The emission walk of the source: before each match push the plain-text
gap since the last position when non-empty, push the typed element, move
past the match; finally push the remaining text when non-empty.  Each span
carries its start index and length in the source text. -/
def emitSpans (t : Str) : Nat → List RawMatch → List (Span × Nat × Nat)
  | last, [] =>
    if last < t.length then [(Span.plain (t.drop last), last, t.length - last)] else []
  | last, m :: ms =>
    (if last < m.index then
      [(Span.plain ((t.drop last).take (m.index - last)), last, m.index - last)]
    else []) ++ (toSpan m, m.index, m.len) :: emitSpans t (m.index + m.len) ms

/-- parseInlineElements of app/_layout.tsx, with source positions: empty
input returns the single empty plain span; otherwise the emission walk runs,
and when it produces nothing the whole text is one plain span. -/
def parseInlinePos (t : Str) : List (Span × Nat × Nat) :=
  if t.isEmpty then [(Span.plain [], 0, 0)]
  else
    if (emitSpans t 0 (filteredSorted t)).isEmpty then [(Span.plain t, 0, t.length)]
    else emitSpans t 0 (filteredSorted t)

def parseInlineElements (t : Str) : List Span := (parseInlinePos t).map (fun x => x.1)

/-! ### Bounds of the collected matches -/

theorem splitAtChar_eq (c : Char) :
    ∀ (s a b : Str), splitAtChar c s = some (a, b) → s = a ++ c :: b := by
  intro s
  induction s with
  | nil => intro a b h; simp [splitAtChar] at h
  | cons x xs ih =>
    intro a b h
    simp only [splitAtChar] at h
    by_cases hx : x = c
    · rw [if_pos hx] at h
      obtain ⟨rfl, rfl⟩ := by simpa using h
      simp [hx]
    · rw [if_neg hx] at h
      cases hs : splitAtChar c xs with
      | none => rw [hs] at h; simp at h
      | some p =>
        rw [hs] at h
        obtain ⟨rfl, rfl⟩ : x :: p.1 = a ∧ p.2 = b := by simpa using h
        simpa using ih p.1 p.2 (by rw [hs])

/-- A scanner is well-formed when every reported match is non-empty and no
longer than the text it was found in. -/
def TryBounds (tryAt : Option Char → List Char → Option (Nat × Str × Str)) : Prop :=
  ∀ (p : Option Char) (t : Str) (len : Nat) (d1 d2 : Str),
    tryAt p t = some (len, d1, d2) → 1 ≤ len ∧ len ≤ t.length

theorem tryImageAt_bounds : TryBounds tryImageAt := by
  intro p t len d1 d2 h
  unfold tryImageAt at h
  split at h
  next a b rest =>
    split at h
    · cases h1 : splitAtChar ']' rest with
      | none => rw [h1] at h; simp at h
      | some pr =>
        rw [h1] at h
        obtain ⟨alt, r1⟩ := pr
        simp only [] at h
        split at h
        next c r2 =>
          split at h
          · cases h2 : splitAtChar ')' r2 with
            | none => rw [h2] at h; simp at h
            | some pu =>
              rw [h2] at h
              obtain ⟨url, r3⟩ := pu
              simp only [] at h
              split at h
              · simp at h
              · obtain ⟨rfl, rfl, rfl⟩ :
                    alt.length + url.length + 5 = len ∧ alt = d1 ∧ url = d2 := by
                  simpa using h
                have e1 := splitAtChar_eq ']' rest alt (c :: r2) (by rw [h1])
                have e2 := splitAtChar_eq ')' r2 url r3 (by rw [h2])
                subst e1
                subst e2
                simp only [List.length_cons, List.length_append]
                omega
          · simp at h
        next => simp at h
    · simp at h
  next => simp at h

theorem tryLinkAt_bounds : TryBounds tryLinkAt := by
  intro p t len d1 d2 h
  unfold tryLinkAt at h
  split at h
  next a rest =>
    split at h
    · cases h1 : splitAtChar ']' rest with
      | none => rw [h1] at h; simp at h
      | some pr =>
        rw [h1] at h
        obtain ⟨txt, r1⟩ := pr
        simp only [] at h
        split at h
        · simp at h
        · split at h
          next c r2 =>
            split at h
            · cases h2 : splitAtChar ')' r2 with
              | none => rw [h2] at h; simp at h
              | some pu =>
                rw [h2] at h
                obtain ⟨url, r3⟩ := pu
                simp only [] at h
                split at h
                · simp at h
                · obtain ⟨rfl, rfl, rfl⟩ :
                      txt.length + url.length + 4 = len ∧ txt = d1 ∧ url = d2 := by
                    simpa using h
                  have e1 := splitAtChar_eq ']' rest txt (c :: r2) (by rw [h1])
                  have e2 := splitAtChar_eq ')' r2 url r3 (by rw [h2])
                  subst e1
                  subst e2
                  simp only [List.length_cons, List.length_append]
                  omega
            · simp at h
          next => simp at h
    · simp at h
  next => simp at h

theorem tryCodeAt_bounds : TryBounds tryCodeAt := by
  intro p t len d1 d2 h
  unfold tryCodeAt at h
  split at h
  next a rest =>
    split at h
    · cases h1 : splitAtChar btChar rest with
      | none => rw [h1] at h; simp at h
      | some pr =>
        rw [h1] at h
        obtain ⟨body, r1⟩ := pr
        simp only [] at h
        split at h
        · simp at h
        · obtain ⟨rfl, rfl, rfl⟩ : body.length + 2 = len ∧ body = d1 ∧ [] = d2 := by simpa using h
          have e1 := splitAtChar_eq btChar rest body r1 (by rw [h1])
          subst e1
          simp only [List.length_cons, List.length_append]
          omega
    · simp at h
  next => simp at h

theorem pairScan_parts (d : Char) :
    ∀ (s a b : Str), pairScan d s = some (a, b) → s = a ++ d :: d :: b := by
  intro s
  induction s with
  | nil => intro a b h; simp [pairScan] at h
  | cons x xs ih =>
    intro a b h
    cases xs with
    | nil => simp [pairScan] at h
    | cons y ys =>
      simp only [pairScan] at h
      split at h
      next hd =>
        obtain ⟨rfl, rfl⟩ : ([] : Str) = a ∧ ys = b := by simpa using h
        obtain ⟨rfl, rfl⟩ : x = d ∧ y = d := by simpa using hd
        simp
      · split at h
        · simp at h
        · cases hs : pairScan d (y :: ys) with
          | none => rw [hs] at h; simp at h
          | some p =>
            rw [hs] at h
            obtain ⟨rfl, rfl⟩ : x :: p.1 = a ∧ p.2 = b := by simpa using h
            simpa using ih p.1 p.2 (by rw [hs])

theorem findPairEnd_parts (d : Char) (s a b : Str) (h : findPairEnd d s = some (a, b)) :
    s = a ++ d :: d :: b ∧ 1 ≤ a.length := by
  cases s with
  | nil => simp [findPairEnd] at h
  | cons c cs =>
    simp only [findPairEnd] at h
    split at h
    · simp at h
    · cases hs : pairScan d cs with
      | none => rw [hs] at h; simp at h
      | some p =>
        rw [hs] at h
        obtain ⟨rfl, rfl⟩ : c :: p.1 = a ∧ p.2 = b := by simpa using h
        have := pairScan_parts d cs p.1 p.2 (by rw [hs])
        constructor
        · simpa using this
        · simp

theorem tryBoldAt_bounds : TryBounds tryBoldAt := by
  intro p t len d1 d2 h
  unfold tryBoldAt at h
  split at h
  next a b rest =>
    split at h
    · cases h1 : findPairEnd a rest with
      | none => rw [h1] at h; simp at h
      | some pr =>
        rw [h1] at h
        obtain ⟨rfl, rfl, rfl⟩ : pr.1.length + 4 = len ∧ pr.1 = d1 ∧ [] = d2 := by simpa using h
        have e1 := findPairEnd_parts a rest pr.1 pr.2 (by rw [h1])
        rw [e1.1]
        simp only [List.length_cons, List.length_append]
        omega
    · simp at h
  next => simp at h

theorem tryStrikeAt_bounds : TryBounds tryStrikeAt := by
  intro p t len d1 d2 h
  unfold tryStrikeAt at h
  split at h
  next a b rest =>
    split at h
    · cases h1 : findPairEnd '~' rest with
      | none => rw [h1] at h; simp at h
      | some pr =>
        rw [h1] at h
        obtain ⟨rfl, rfl, rfl⟩ : pr.1.length + 4 = len ∧ pr.1 = d1 ∧ [] = d2 := by simpa using h
        have e1 := findPairEnd_parts '~' rest pr.1 pr.2 (by rw [h1])
        rw [e1.1]
        simp only [List.length_cons, List.length_append]
        omega
    · simp at h
  next => simp at h

theorem tryItalicAt_bounds : TryBounds tryItalicAt := by
  intro p t len d1 d2 h
  unfold tryItalicAt at h
  split at h
  next c rest =>
    split at h
    · split at h
      · simp at h
      · cases h1 : splitAtChar c rest with
        | none => rw [h1] at h; simp at h
        | some pr =>
          rw [h1] at h
          obtain ⟨content, r2⟩ := pr
          simp only [] at h
          split at h
          · simp at h
          · split at h
            · simp at h
            · obtain ⟨rfl, rfl, rfl⟩ : content.length + 2 = len ∧ content = d1 ∧ [] = d2 := by
                simpa using h
              have e1 := splitAtChar_eq c rest content r2 (by rw [h1])
              subst e1
              simp only [List.length_cons, List.length_append]
              omega
    · simp at h
  next => simp at h

/-- Every match reported by a well-formed scan is non-empty, starts at or
after the scan position, and ends within the scanned text. -/
theorem scanFrom_bounds (tryAt : Option Char → List Char → Option (Nat × Str × Str))
    (hb : TryBounds tryAt) (tp : MType) (full : Str) :
    ∀ (fuel i : Nat) (cs : List Char), cs.length ≤ fuel →
      ∀ m ∈ scanFromFuel tryAt tp full fuel i cs,
        i ≤ m.index ∧ 1 ≤ m.len ∧ m.index + m.len ≤ i + cs.length := by
  intro fuel
  induction fuel with
  | zero =>
    intro i cs h m hm
    simp [scanFromFuel] at hm
  | succ fuel ih =>
    intro i cs h m hm
    cases cs with
    | nil => simp [scanFromFuel] at hm
    | cons c cs =>
      simp only [List.length_cons] at h
      simp only [scanFromFuel] at hm
      cases htry : tryAt (if i = 0 then none else full[i - 1]?) (c :: cs) with
      | none =>
        rw [htry] at hm
        have := ih (i + 1) cs (by omega) m hm
        simp only [List.length_cons]
        omega
      | some r =>
        obtain ⟨len, d1, d2⟩ := r
        rw [htry] at hm
        simp only [List.mem_cons] at hm
        have hlen := hb _ _ _ _ _ htry
        simp only [List.length_cons] at hlen
        cases hm with
        | inl he =>
          subst he
          simp only [List.length_cons]
          omega
        | inr hm =>
          have hdl : (List.drop (len - 1) cs).length ≤ fuel := by
            simp only [List.length_drop]
            omega
          have := ih (i + len) (List.drop (len - 1) cs) hdl m hm
          simp only [List.length_drop] at this
          simp only [List.length_cons]
          omega

/-! ### The overlap filter leaves pairwise disjoint matches -/

def NoOv (fs : List RawMatch) : Prop := fs.Pairwise (fun a b => jsOverlap a b = false)

theorem jsOverlap_comm (a b : RawMatch) : jsOverlap a b = jsOverlap b a := by
  unfold jsOverlap
  rw [Bool.or_comm]

/-- A candidate starting at or after two disjoint matches cannot overlap
both of them: its start would have to lie inside each of the two ranges. -/
theorem overlap_both (a b c : RawMatch) (ha : a.index ≤ c.index) (hb : b.index ≤ c.index)
    (la : 1 ≤ a.len) (lb : 1 ≤ b.len)
    (oa : jsOverlap c a = true) (ob : jsOverlap c b = true) : jsOverlap a b = true := by
  simp only [jsOverlap, Bool.or_eq_true, Bool.and_eq_true, decide_eq_true_eq] at oa ob ⊢
  omega

theorem resolveOne_none_no_overlap (c : RawMatch) :
    ∀ fs, resolveOne c fs = none → ∀ e ∈ fs, jsOverlap c e = false := by
  intro fs
  induction fs with
  | nil => intro _ e he; simp at he
  | cons f rest ih =>
    intro h e he
    simp only [resolveOne] at h
    split at h
    · simp at h
    next hov =>
      cases hs : resolveOne c rest with
      | none =>
        rcases List.mem_cons.mp he with rfl | hm
        · simpa using hov
        · exact ih hs e hm
      | some fs' => rw [hs] at h; simp at h

theorem resolveOne_some_mem (c : RawMatch) :
    ∀ fs fs', resolveOne c fs = some fs' → ∀ e ∈ fs', e ∈ fs ∨ e = c := by
  intro fs
  induction fs with
  | nil => intro fs' h; simp [resolveOne] at h
  | cons f rest ih =>
    intro fs' h e he
    simp only [resolveOne] at h
    split at h
    · obtain rfl : (if f.len < c.len then c else f) :: rest = fs' := by simpa using h
      rcases List.mem_cons.mp he with rfl | hm
      · split
        · right; rfl
        · left; exact List.mem_cons_self _ _
      · left; exact List.mem_cons_of_mem _ hm
    · cases hs : resolveOne c rest with
      | none => rw [hs] at h; simp at h
      | some fs'' =>
        rw [hs] at h
        obtain rfl : f :: fs'' = fs' := by simpa using h
        rcases List.mem_cons.mp he with rfl | hm
        · left; exact List.mem_cons_self _ _
        · rcases ih fs'' hs e hm with hin | rfl
          · left; exact List.mem_cons_of_mem _ hin
          · right; rfl

theorem resolveOne_some_noov (c : RawMatch) :
    ∀ fs fs', resolveOne c fs = some fs' → NoOv fs →
      (∀ e ∈ fs, e.index ≤ c.index ∧ 1 ≤ e.len) → 1 ≤ c.len → NoOv fs' := by
  intro fs
  induction fs with
  | nil => intro fs' h; simp [resolveOne] at h
  | cons f rest ih =>
    intro fs' h hno hb hc
    have hfr := List.pairwise_cons.mp hno
    simp only [resolveOne] at h
    split at h
    next hov =>
      obtain rfl : (if f.len < c.len then c else f) :: rest = fs' := by simpa using h
      split
      next hlen =>
        refine List.pairwise_cons.mpr ⟨fun e he => ?_, hfr.2⟩
        by_contra hce
        rw [Bool.not_eq_false] at hce
        have hfe : jsOverlap f e = true := by
          refine overlap_both f e c (hb f (List.mem_cons_self _ _)).1
            (hb e (List.mem_cons_of_mem _ he)).1 (hb f (List.mem_cons_self _ _)).2
            (hb e (List.mem_cons_of_mem _ he)).2 hov hce
        have := hfr.1 e he
        simp_all
      · exact hno
    next hov =>
      cases hs : resolveOne c rest with
      | none => rw [hs] at h; simp at h
      | some fs'' =>
        rw [hs] at h
        obtain rfl : f :: fs'' = fs' := by simpa using h
        refine List.pairwise_cons.mpr ⟨fun e he => ?_, ?_⟩
        · rcases resolveOne_some_mem c rest fs'' hs e he with hin | rfl
          · exact hfr.1 e hin
          · rw [← jsOverlap_comm] at hov
            simpa using hov
        · exact ih fs'' hs hfr.2 (fun e he => hb e (List.mem_cons_of_mem _ he)) hc

theorem filterStep_inv (fs : List RawMatch) (c : RawMatch) (hno : NoOv fs)
    (hb : ∀ e ∈ fs, e.index ≤ c.index ∧ 1 ≤ e.len) (hc : 1 ≤ c.len) :
    NoOv (filterStep fs c) ∧ ∀ e ∈ filterStep fs c, e ∈ fs ∨ e = c := by
  cases hs : resolveOne c fs with
  | some fs' =>
    have heq : filterStep fs c = fs' := by unfold filterStep; rw [hs]
    rw [heq]
    exact ⟨resolveOne_some_noov c fs fs' hs hno hb hc, resolveOne_some_mem c fs fs' hs⟩
  | none =>
    have heq : filterStep fs c = fs ++ [c] := by unfold filterStep; rw [hs]
    rw [heq]
    constructor
    · unfold NoOv
      rw [List.pairwise_append]
      refine ⟨hno, by simp, fun e he c' hc' => ?_⟩
      have hcc : c' = c := by simpa using hc'
      rw [hcc, jsOverlap_comm]
      exact resolveOne_none_no_overlap c fs hs e he
    · intro e he
      rcases List.mem_append.mp he with hin | hin
      · left; exact hin
      · right; simpa using hin

theorem foldl_filterStep_inv :
    ∀ (ms fs : List RawMatch), ms.Pairwise idxLe → (∀ m ∈ ms, 1 ≤ m.len) → NoOv fs →
      (∀ e ∈ fs, 1 ≤ e.len ∧ ∀ m ∈ ms, e.index ≤ m.index) →
      NoOv (ms.foldl filterStep fs) ∧ ∀ e ∈ ms.foldl filterStep fs, e ∈ fs ∨ e ∈ ms := by
  intro ms
  induction ms with
  | nil =>
    intro fs _ _ hno hb
    exact ⟨hno, fun e he => Or.inl he⟩
  | cons c ms ih =>
    intro fs hs hlen hno hb
    have hsrest := List.pairwise_cons.mp hs
    simp only [List.foldl_cons]
    have hstep := filterStep_inv fs c hno
      (fun e he => ⟨(hb e he).2 c (List.mem_cons_self _ _), (hb e he).1⟩)
      (hlen c (List.mem_cons_self _ _))
    have hbnd : ∀ e ∈ filterStep fs c, 1 ≤ e.len ∧ ∀ m ∈ ms, e.index ≤ m.index := by
      intro e he
      rcases hstep.2 e he with hin | rfl
      · exact ⟨(hb e hin).1, fun m hm => (hb e hin).2 m (List.mem_cons_of_mem _ hm)⟩
      · exact ⟨hlen _ (List.mem_cons_self _ _), fun m hm => hsrest.1 m hm⟩
    have hrec := ih (filterStep fs c) hsrest.2
      (fun m hm => hlen m (List.mem_cons_of_mem _ hm)) hstep.1 hbnd
    refine ⟨hrec.1, fun e he => ?_⟩
    rcases hrec.2 e he with hin | hin
    · rcases hstep.2 e hin with hin' | rfl
      · left; exact hin'
      · right; exact List.mem_cons_self _ _
    · right; exact List.mem_cons_of_mem _ hin

/-! ### Sorted, disjoint, in-bounds matches reach the emission walk -/

theorem scanTop_bounds (tryAt : Option Char → List Char → Option (Nat × Str × Str))
    (hb : TryBounds tryAt) (tp : MType) (t : Str) :
    ∀ m ∈ scanFrom tryAt tp t 0 t, 1 ≤ m.len ∧ m.index + m.len ≤ t.length := by
  intro m hm
  unfold scanFrom at hm
  have h := scanFrom_bounds tryAt hb tp t t.length 0 t le_rfl m hm
  exact ⟨h.2.1, by omega⟩

theorem collectMatches_bounds (t : Str) :
    ∀ m ∈ collectMatches t, 1 ≤ m.len ∧ m.index + m.len ≤ t.length := by
  intro m hm
  unfold collectMatches at hm
  simp only [List.mem_append] at hm
  rcases hm with (((h | h) | h) | h) | h
  · exact scanTop_bounds tryImageAt tryImageAt_bounds .image t m h
  · exact scanTop_bounds tryLinkAt tryLinkAt_bounds .link t m (List.mem_filter.mp h).1
  · exact scanTop_bounds tryCodeAt tryCodeAt_bounds .code t m h
  · exact scanTop_bounds tryBoldAt tryBoldAt_bounds .bold t m h
  · exact scanTop_bounds tryItalicAt tryItalicAt_bounds .ital t m (List.mem_filter.mp h).1

theorem overlapFalse_symm : Symmetric (fun a b : RawMatch => jsOverlap a b = false) := by
  intro a b h
  rw [jsOverlap_comm]
  exact h

theorem filteredSorted_props (t : Str) :
    (filteredSorted t).Pairwise idxLe ∧ NoOv (filteredSorted t) ∧
      ∀ m ∈ filteredSorted t, 1 ≤ m.len ∧ m.index + m.len ≤ t.length := by
  have hsortedA : (sortByIdx (collectMatches t)).Pairwise idxLe :=
    List.sorted_insertionSort idxLe (collectMatches t)
  have hpermA : List.Perm (sortByIdx (collectMatches t)) (collectMatches t) :=
    List.perm_insertionSort idxLe (collectMatches t)
  have hboundsA : ∀ m ∈ sortByIdx (collectMatches t), 1 ≤ m.len ∧ m.index + m.len ≤ t.length :=
    fun m hm => collectMatches_bounds t m (hpermA.mem_iff.mp hm)
  have hfold := foldl_filterStep_inv (sortByIdx (collectMatches t)) [] hsortedA
    (fun m hm => (hboundsA m hm).1) (List.Pairwise.nil) (by simp)
  have hsubF : ∀ m ∈ overlapFilter (sortByIdx (collectMatches t)),
      m ∈ sortByIdx (collectMatches t) := by
    intro m hm
    rcases hfold.2 m hm with hin | hin
    · simp at hin
    · exact hin
  have hpermF : List.Perm (filteredSorted t) (overlapFilter (sortByIdx (collectMatches t))) :=
    List.perm_insertionSort idxLe _
  refine ⟨List.sorted_insertionSort idxLe _, ?_, ?_⟩
  · exact (hpermF.pairwise_iff (fun hxy => overlapFalse_symm hxy)).mpr hfold.1
  · intro m hm
    exact hboundsA m (hsubF m (hpermF.mem_iff.mp hm))

/-- Chained matches: each starts at or after the running position and ends
within the text; successive matches are ordered left to right. -/
def MChain (n : Nat) : Nat → List RawMatch → Prop
  | _, [] => True
  | last, m :: ms => last ≤ m.index ∧ m.index + m.len ≤ n ∧ MChain n (m.index + m.len) ms

theorem chain_build (n : Nat) :
    ∀ (ms : List RawMatch), ms.Pairwise idxLe → NoOv ms →
      (∀ m ∈ ms, 1 ≤ m.len ∧ m.index + m.len ≤ n) →
      ∀ last, (∀ m ∈ ms, last ≤ m.index) → MChain n last ms := by
  intro ms
  induction ms with
  | nil => intro _ _ _ last _; trivial
  | cons m ms ih =>
    intro hs hno hb last hlast
    have hsrest := List.pairwise_cons.mp hs
    have hnorest := List.pairwise_cons.mp hno
    refine ⟨hlast m (List.mem_cons_self _ _), (hb m (List.mem_cons_self _ _)).2, ?_⟩
    refine ih hsrest.2 hnorest.2 (fun x hx => hb x (List.mem_cons_of_mem _ hx)) _ ?_
    intro x hx
    have hidx : m.index ≤ x.index := hsrest.1 x hx
    have hov := hnorest.1 x hx
    simp only [jsOverlap, Bool.or_eq_false_iff, Bool.and_eq_false_iff,
      decide_eq_false_iff_not] at hov
    have hlen := (hb m (List.mem_cons_self _ _)).1
    omega

theorem seg_join' (t : Str) (a k : Nat) :
    (t.drop a).take k ++ t.drop (a + k) = t.drop a := by
  have h1 := List.take_append_drop k (t.drop a)
  rw [List.drop_drop] at h1
  exact h1

theorem seg_join (t : Str) (a b : Nat) (hab : a ≤ b) :
    (t.drop a).take (b - a) ++ t.drop b = t.drop a := by
  have h := seg_join' t a (b - a)
  rwa [Nat.add_sub_cancel' hab] at h

theorem emitSpans_concat (t : Str) :
    ∀ (ms : List RawMatch) (last : Nat), MChain t.length last ms → last ≤ t.length →
      ((emitSpans t last ms).map (fun x => (t.drop x.2.1).take x.2.2)).flatten = t.drop last := by
  intro ms
  induction ms with
  | nil =>
    intro last _ hle
    by_cases h : last < t.length
    · simp only [emitSpans, if_pos h, List.map_cons, List.map_nil, List.flatten_cons,
        List.flatten_nil, List.append_nil]
      have hl : t.length - last = (t.drop last).length := by simp [List.length_drop]
      rw [hl, List.take_length]
    · simp only [emitSpans, if_neg h, List.map_nil, List.flatten_nil]
      exact (List.drop_eq_nil_of_le (by omega)).symm
  | cons m ms ih =>
    intro last hch hle
    obtain ⟨h1, h2, h3⟩ := hch
    simp only [emitSpans]
    by_cases hg : last < m.index
    · rw [if_pos hg]
      simp only [List.singleton_append, List.map_cons, List.flatten_cons]
      rw [ih (m.index + m.len) h3 (by omega)]
      rw [seg_join' t m.index m.len]
      exact seg_join t last m.index (le_of_lt hg)
    · rw [if_neg hg]
      simp only [List.nil_append, List.map_cons, List.flatten_cons]
      rw [ih (m.index + m.len) h3 (by omega)]
      have hla : last = m.index := by omega
      rw [hla]
      exact seg_join' t m.index m.len

/-- Consecutive positioned spans: each starts at or after the previous
span's end. -/
def SpanChain : Nat → List (Span × Nat × Nat) → Prop
  | _, [] => True
  | last, x :: xs => last ≤ x.2.1 ∧ SpanChain (x.2.1 + x.2.2) xs

theorem emitSpans_chain (t : Str) :
    ∀ (ms : List RawMatch) (last : Nat), MChain t.length last ms →
      SpanChain last (emitSpans t last ms) := by
  intro ms
  induction ms with
  | nil =>
    intro last _
    by_cases h : last < t.length
    · simp only [emitSpans, if_pos h]
      exact ⟨le_rfl, trivial⟩
    · simp only [emitSpans, if_neg h]
      trivial
  | cons m ms ih =>
    intro last hch
    obtain ⟨h1, h2, h3⟩ := hch
    simp only [emitSpans]
    by_cases hg : last < m.index
    · rw [if_pos hg]
      simp only [List.singleton_append]
      refine ⟨le_rfl, ?_, ih (m.index + m.len) h3⟩
      show last + (m.index - last) ≤ m.index
      omega
    · rw [if_neg hg]
      simp only [List.nil_append]
      exact ⟨h1, ih (m.index + m.len) h3⟩

theorem spanChain_lb :
    ∀ (xs : List (Span × Nat × Nat)) (last : Nat), SpanChain last xs →
      ∀ x ∈ xs, last ≤ x.2.1 := by
  intro xs
  induction xs with
  | nil => intro last _ x hx; simp at hx
  | cons y ys ih =>
    intro last hch x hx
    obtain ⟨hy, hrest⟩ := hch
    rcases List.mem_cons.mp hx with rfl | hm
    · exact hy
    · exact le_trans (by omega) (ih (y.2.1 + y.2.2) hrest x hm)

theorem spanChain_pairwise :
    ∀ (xs : List (Span × Nat × Nat)) (last : Nat), SpanChain last xs →
      xs.Pairwise (fun a b => a.2.1 + a.2.2 ≤ b.2.1) := by
  intro xs
  induction xs with
  | nil => intro _ _; exact List.Pairwise.nil
  | cons y ys ih =>
    intro last hch
    obtain ⟨hy, hrest⟩ := hch
    exact List.pairwise_cons.mpr
      ⟨fun x hx => spanChain_lb ys (y.2.1 + y.2.2) hrest x hx, ih _ hrest⟩

theorem filteredSorted_chain (t : Str) : MChain t.length 0 (filteredSorted t) := by
  have hprops := filteredSorted_props t
  exact chain_build t.length (filteredSorted t) hprops.1 hprops.2.1 hprops.2.2 0
    (fun m _ => Nat.zero_le _)

/-- C4: the produced inline spans are non-overlapping: the surviving
matches of the overlap filter are pairwise non-overlapping, and the
positioned spans of the inline pass cover pairwise disjoint ranges. -/
theorem inline_spans_non_overlap (t : Str) :
    (filteredSorted t).Pairwise (fun a b => jsOverlap a b = false) ∧
      (parseInlinePos t).Pairwise
        (fun a b => a.2.1 + a.2.2 ≤ b.2.1 ∨ b.2.1 + b.2.2 ≤ a.2.1) := by
  refine ⟨(filteredSorted_props t).2.1, ?_⟩
  unfold parseInlinePos
  split
  · simp
  · split
    · simp
    · exact (spanChain_pairwise _ 0 (emitSpans_chain t _ 0 (filteredSorted_chain t))).imp
        (fun h => Or.inl h)

/-- Follows the claim wording for C3 (spec side): the rendered text of a
span, for Link the display text (not the url) and for Image the alt text. -/
def specSpanText : Span → Str
  | .plain s => s
  | .bold s => s
  | .ital s => s
  | .code s => s
  | .strike s => s
  | .link s _ => s
  | .image a _ => a

def spansText (ss : List Span) : Str := (ss.map specSpanText).flatten

/-- C3 counterexample: the bold markup loses its delimiters: the inline
pass turns the five-character text star star b star star into the single
Bold span b, whose rendered text does not reproduce the input. -/
theorem inline_text_counterexample :
    parseInlineElements ['*', '*', 'b', '*', '*'] = [Span.bold ['b']] ∧
      spansText (parseInlineElements ['*', '*', 'b', '*', '*']) = ['b'] ∧
      ¬ spansText (parseInlineElements ['*', '*', 'b', '*', '*']) =
          ['*', '*', 'b', '*', '*'] := by
  refine ⟨by decide, by decide, by decide⟩

/-- C3 amended: the spans tile the block text: concatenating the source
segments covered by the produced spans, in order, reproduces the text
exactly (plain-text spans carry their segment verbatim; styled spans cover
their delimiters, which their text field strips). -/
theorem inline_segments_reconstruct (t : Str) :
    ((parseInlinePos t).map (fun x => (t.drop x.2.1).take x.2.2)).flatten = t := by
  unfold parseInlinePos
  split
  next hempty =>
    rw [List.isEmpty_iff] at hempty
    subst hempty
    simp
  · split
    · simp [List.take_length]
    · have h := emitSpans_concat t (filteredSorted t) 0 (filteredSorted_chain t) (Nat.zero_le _)
      simpa using h

theorem parseBlocks_length_le (L : List Str) : (parseBlocks L).length ≤ L.length := by
  have key : ∀ (n : Nat) (L : List Str), L.length ≤ n →
      (parseBlocks L).length ≤ L.length := by
    intro n
    induction n with
    | zero =>
      intro L h
      cases L with
      | nil => simp [parseBlocks_nil]
      | cons l ls => simp at h
    | succ n ih =>
      intro L h
      cases L with
      | nil => simp [parseBlocks_nil]
      | cons l ls =>
        rw [parseBlocks_cons]
        simp only [List.length_cons] at h ⊢
        have hr := blockStep_rest_le l ls
        have := ih ((blockStep l ls).2) (by omega)
        omega
  exact key L.length L le_rfl

/-- C1: parse is total.  Every iteration of the block loop consumes at
least one line (so the loop terminates and the number of blocks is bounded
by the number of lines), and the inline pass returns a non-empty span
sequence on every block text; both passes are total functions returning
plain values, never an error. -/
theorem parse_total :
    (∀ (l : Str) (ls : List Str), ((blockStep l ls).2).length < (l :: ls).length) ∧
      (∀ s : Str, (parseMarkdown s).length ≤ (splitOnChar '\n' s).length) ∧
      (∀ t : Str, 1 ≤ (parseInlineElements t).length) := by
  refine ⟨?_, ?_, ?_⟩
  · intro l ls
    simp only [List.length_cons]
    exact Nat.lt_succ_of_le (blockStep_rest_le l ls)
  · intro s
    exact parseBlocks_length_le _
  · intro t
    unfold parseInlineElements parseInlinePos
    split
    · simp
    · split
      · simp
      next hne =>
        rw [Bool.not_eq_true, List.isEmpty_eq_false] at hne
        simpa using List.length_pos.mpr hne

/-! ### Scans find nothing in texts without their trigger characters -/

theorem scanFromFuel_nil_of_none (tryAt : Option Char → List Char → Option (Nat × Str × Str))
    (tp : MType) (full : Str) :
    ∀ (fuel i : Nat) (cs : List Char),
      (∀ (p : Option Char) (cs' : List Char), cs' <:+ cs → tryAt p cs' = none) →
      scanFromFuel tryAt tp full fuel i cs = [] := by
  intro fuel
  induction fuel with
  | zero => intro i cs _; rfl
  | succ fuel ih =>
    intro i cs h
    cases cs with
    | nil => rfl
    | cons c cs =>
      simp only [scanFromFuel, h _ (c :: cs) (List.suffix_refl _)]
      exact ih (i + 1) cs (fun p cs' hs => h p cs' (hs.trans (List.suffix_cons c cs)))

theorem scanTop_nil (tryAt : Option Char → List Char → Option (Nat × Str × Str))
    (tp : MType) (t : Str)
    (h : ∀ (p : Option Char) (cs' : List Char), cs' <:+ t → tryAt p cs' = none) :
    scanFrom tryAt tp t 0 t = [] :=
  scanFromFuel_nil_of_none tryAt tp t t.length 0 t h

theorem tryImageAt_none_head (p : Option Char) (cs : Str) (h : cs.head? ≠ some '!') :
    tryImageAt p cs = none := by
  cases cs with
  | nil => rfl
  | cons a r =>
    cases r with
    | nil => rfl
    | cons b r2 =>
      have ha : a ≠ '!' := by simpa using h
      simp [tryImageAt, ha]

theorem tryLinkAt_none_head (p : Option Char) (cs : Str) (h : cs.head? ≠ some '[') :
    tryLinkAt p cs = none := by
  cases cs with
  | nil => rfl
  | cons a r =>
    have ha : a ≠ '[' := by simpa using h
    simp [tryLinkAt, ha]

theorem tryCodeAt_none_head (p : Option Char) (cs : Str) (h : cs.head? ≠ some btChar) :
    tryCodeAt p cs = none := by
  cases cs with
  | nil => rfl
  | cons a r =>
    have ha : a ≠ btChar := by simpa using h
    simp [tryCodeAt, ha]

theorem tryBoldAt_none_head (p : Option Char) (cs : Str)
    (h1 : cs.head? ≠ some '*') (h2 : cs.head? ≠ some '_') : tryBoldAt p cs = none := by
  cases cs with
  | nil => rfl
  | cons a r =>
    cases r with
    | nil => rfl
    | cons b r2 =>
      have ha1 : a ≠ '*' := by simpa using h1
      have ha2 : a ≠ '_' := by simpa using h2
      simp [tryBoldAt, ha1, ha2]

theorem tryStrikeAt_none_head (p : Option Char) (cs : Str) (h : cs.head? ≠ some '~') :
    tryStrikeAt p cs = none := by
  cases cs with
  | nil => rfl
  | cons a r =>
    cases r with
    | nil => rfl
    | cons b r2 =>
      have ha : a ≠ '~' := by simpa using h
      simp [tryStrikeAt, ha]

theorem tryItalicAt_none_head (p : Option Char) (cs : Str)
    (h1 : cs.head? ≠ some '*') (h2 : cs.head? ≠ some '_') : tryItalicAt p cs = none := by
  cases cs with
  | nil => rfl
  | cons a r =>
    have ha1 : a ≠ '*' := by simpa using h1
    have ha2 : a ≠ '_' := by simpa using h2
    simp [tryItalicAt, ha1, ha2]

/-- Heads of suffixes are members of the list. -/
theorem suffix_head_mem {cs' t : Str} {c : Char} (hs : cs' <:+ t) (hh : cs'.head? = some c) :
    c ∈ t := by
  cases cs' with
  | nil => simp at hh
  | cons a r =>
    obtain rfl : a = c := by simpa using hh
    exact hs.subset (List.mem_cons_self _ _)

theorem splitAtChar_exact (c : Char) :
    ∀ (a r : Str), c ∉ a → splitAtChar c (a ++ c :: r) = some (a, r) := by
  intro a
  induction a with
  | nil => intro r _; simp [splitAtChar]
  | cons x xs ih =>
    intro r hc
    have hx : ¬ x = c := by
      intro hx
      exact hc (by simp [hx])
    simp only [List.cons_append, splitAtChar, if_neg hx]
    rw [show xs.append (c :: r) = xs ++ c :: r from rfl,
      ih r (fun hm => hc (List.mem_cons_of_mem _ hm))]
    rfl

theorem tryImageAt_none_mem (p : Option Char) (cs' t' : Str) (hs : cs' <:+ t')
    (hmem : '!' ∉ t') : tryImageAt p cs' = none :=
  tryImageAt_none_head p cs' (fun hh => hmem (suffix_head_mem hs hh))

theorem tryLinkAt_none_mem (p : Option Char) (cs' t' : Str) (hs : cs' <:+ t')
    (hmem : '[' ∉ t') : tryLinkAt p cs' = none :=
  tryLinkAt_none_head p cs' (fun hh => hmem (suffix_head_mem hs hh))

theorem tryCodeAt_none_mem (p : Option Char) (cs' t' : Str) (hs : cs' <:+ t')
    (hmem : btChar ∉ t') : tryCodeAt p cs' = none :=
  tryCodeAt_none_head p cs' (fun hh => hmem (suffix_head_mem hs hh))

theorem tryBoldAt_none_mem (p : Option Char) (cs' t' : Str) (hs : cs' <:+ t')
    (h1 : '*' ∉ t') (h2 : '_' ∉ t') : tryBoldAt p cs' = none :=
  tryBoldAt_none_head p cs' (fun hh => h1 (suffix_head_mem hs hh))
    (fun hh => h2 (suffix_head_mem hs hh))

theorem tryItalicAt_none_mem (p : Option Char) (cs' t' : Str) (hs : cs' <:+ t')
    (h1 : '*' ∉ t') (h2 : '_' ∉ t') : tryItalicAt p cs' = none :=
  tryItalicAt_none_head p cs' (fun hh => h1 (suffix_head_mem hs hh))
    (fun hh => h2 (suffix_head_mem hs hh))

theorem tryStrikeAt_none_mem (p : Option Char) (cs' t' : Str) (hs : cs' <:+ t')
    (hmem : '~' ∉ t') : tryStrikeAt p cs' = none :=
  tryStrikeAt_none_head p cs' (fun hh => hmem (suffix_head_mem hs hh))

/-- A link attempt at an opening bracket immediately followed by the closing
bracket fails: the display text capture is non-empty. -/
theorem tryLinkAt_empty_text (p : Option Char) (r1 : Str) :
    tryLinkAt p ('[' :: ']' :: r1) = none := by
  simp [tryLinkAt, splitAtChar]

/-- The image attempt at bang bracket bracket paren url paren succeeds with
an empty alt text and the whole url. -/
theorem tryImageAt_hit (p : Option Char) (u : Str) (hur : ')' ∉ u) (hne : u ≠ []) :
    tryImageAt p ('!' :: '[' :: ']' :: '(' :: (u ++ [')'])) = some (u.length + 5, [], u) := by
  have h2 : splitAtChar ')' (u ++ [')']) = some (u, []) := by
    simpa using splitAtChar_exact ')' u [] hur
  have hbe : u.isEmpty = false := by
    simpa [List.isEmpty_iff] using hne
  simp [tryImageAt, splitAtChar, h2, hbe]

def isPlainSpan : Span → Bool
  | .plain _ => true
  | _ => false

/-- C10 counterexample: for the closing-paren-free url a star b star c, the
bare bracket form does not stay literal plain text: the italic regex
matches inside the url and the inline pass emits an Italic span. -/
theorem inline_link_literal_counterexample :
    ')' ∉ (['a', '*', 'b', '*', 'c'] : Str) ∧
      parseInlineElements ['[', ']', '(', 'a', '*', 'b', '*', 'c', ')'] =
        [Span.plain ['[', ']', '(', 'a'], Span.ital ['b'], Span.plain ['c', ')']] ∧
      (parseInlineElements ['[', ']', '(', 'a', '*', 'b', '*', 'c', ')']).all
        (fun s => isPlainSpan s) = false := by
  refine ⟨by decide, by decide, by decide⟩

theorem orderedInsert_min (a : RawMatch) (ha : a.index = 0) (l : List RawMatch) :
    List.orderedInsert idxLe a l = a :: l := by
  cases l with
  | nil => rfl
  | cons b t =>
    simp only [List.orderedInsert]
    rw [if_pos]
    show a.index ≤ b.index
    rw [ha]
    exact Nat.zero_le _

/-- A match covering the whole text from index zero survives the overlap
filter against every later candidate: each of them overlaps it (its start
lies inside the covering range) and none is longer. -/
theorem foldl_keep_full (m0 : RawMatch) (hm0i : m0.index = 0) :
    ∀ rest : List RawMatch, (∀ c ∈ rest, 1 ≤ c.len ∧ c.index + c.len ≤ m0.len) →
      List.foldl filterStep [m0] rest = [m0] := by
  intro rest
  induction rest with
  | nil => intro _; rfl
  | cons c rest ih =>
    intro h
    have hb := h c (List.mem_cons_self _ _)
    have hov : jsOverlap c m0 = true := by
      simp only [jsOverlap, Bool.or_eq_true, Bool.and_eq_true, decide_eq_true_eq]
      omega
    have hlt : ¬ m0.len < c.len := by omega
    have hstep : filterStep [m0] c = [m0] := by
      simp [filterStep, resolveOne, hov, hlt]
    rw [List.foldl_cons, hstep]
    exact ih (fun x hx => h x (List.mem_cons_of_mem _ hx))

/-- When the first collected match starts at index zero and covers the
whole text, it is the only survivor of sorting and overlap filtering. -/
theorem filteredSorted_of_whole_match (t : Str) (m0 : RawMatch)
    (hm0i : m0.index = 0) (hm0l : m0.len = t.length)
    (hhead : ∃ rest, collectMatches t = m0 :: rest) :
    filteredSorted t = [m0] := by
  obtain ⟨rest, hr⟩ := hhead
  have hbnd : ∀ x ∈ rest, 1 ≤ x.len ∧ x.index + x.len ≤ t.length := by
    intro x hx
    exact collectMatches_bounds t x (by rw [hr]; exact List.mem_cons_of_mem _ hx)
  unfold filteredSorted
  rw [hr]
  have hs1 : sortByIdx (m0 :: rest) = m0 :: sortByIdx rest := by
    show List.orderedInsert idxLe m0 (List.insertionSort idxLe rest) =
      m0 :: List.insertionSort idxLe rest
    exact orderedInsert_min m0 hm0i _
  rw [hs1]
  have hbnd2 : ∀ x ∈ sortByIdx rest, 1 ≤ x.len ∧ x.index + x.len ≤ m0.len := by
    intro x hx
    have := hbnd x ((List.perm_insertionSort idxLe rest).mem_iff.mp hx)
    omega
  have hof : overlapFilter (m0 :: sortByIdx rest) = [m0] := by
    unfold overlapFilter
    rw [List.foldl_cons]
    exact foldl_keep_full m0 hm0i _ hbnd2
  rw [hof]
  rfl

/-- C10 amended: the image pattern matches with an empty alt text and the
link pattern requires a non-empty display text.  For every non-empty url
free of closing parens, the bang bracket form produces exactly one Image
span with empty alt: the image match covers the whole text and wins the
overlap filter against every candidate inside the url.  The bare bracket
form never yields a Link match at its brackets, and when the url is also
free of the inline trigger characters the whole text stays one literal
PlainText span (a url containing triggers may style its remainder, as the
counterexample shows).  The empty-url forms stay literal for both
patterns. -/
theorem inline_image_link_pattern :
    (∀ u : Str, u ≠ [] → ')' ∉ u →
      parseInlineElements ('!' :: '[' :: ']' :: '(' :: (u ++ [')'])) = [Span.image [] u]) ∧
    (∀ u : Str, (∀ c ∈ u, c ≠ '[' ∧ c ≠ btChar ∧ c ≠ '*' ∧ c ≠ '_' ∧ c ≠ '!') →
      parseInlineElements ('[' :: ']' :: '(' :: (u ++ [')'])) =
        [Span.plain ('[' :: ']' :: '(' :: (u ++ [')']))]) ∧
    parseInlineElements ['!', '[', ']', '(', ')'] = [Span.plain ['!', '[', ']', '(', ')']] ∧
    parseInlineElements ['[', 'x', ']', '(', ')'] = [Span.plain ['[', 'x', ']', '(', ')']] := by
  refine ⟨?_, ?_, by decide, by decide⟩
  · -- the image string, arbitrary closing-paren-free url
    intro u hne hpar
    have himg : imageMatches ('!' :: '[' :: ']' :: '(' :: (u ++ [')'])) =
        [⟨.image, 0, u.length + 5, [], u⟩] := by
      unfold imageMatches
      rw [scanFrom_cons_some tryImageAt .image _ 0 '!' ('[' :: ']' :: '(' :: (u ++ [')']))
        (u.length + 5) [] u
        (by simpa using tryImageAt_hit none u hpar hne)]
      have hd : List.drop (u.length + 5 - 1) ('[' :: ']' :: '(' :: (u ++ [')'])) = [] := by
        apply List.drop_eq_nil_of_le
        simp
      rw [hd]
      rfl
    have hfs : filteredSorted ('!' :: '[' :: ']' :: '(' :: (u ++ [')'])) =
        [⟨.image, 0, u.length + 5, [], u⟩] := by
      apply filteredSorted_of_whole_match
      · rfl
      · show u.length + 5 = ('!' :: '[' :: ']' :: '(' :: (u ++ [')'])).length
        simp only [List.length_cons, List.length_append, List.length_nil]
      · unfold collectMatches
        rw [himg]
        exact ⟨_, rfl⟩
    unfold parseInlineElements parseInlinePos
    rw [hfs]
    have he : emitSpans ('!' :: '[' :: ']' :: '(' :: (u ++ [')'])) 0
        [⟨.image, 0, u.length + 5, [], u⟩] = [(Span.image [] u, 0, u.length + 5)] := by
      simp only [emitSpans, toSpan]
      rw [if_neg (by omega), if_neg (by simp)]
      rfl
    rw [he]
    rfl
  · -- the bare link string, trigger-free url
    intro u hsafe
    have hmemL : ∀ c ∈ ('[' :: ']' :: '(' :: (u ++ [')'])),
        c ≠ btChar ∧ c ≠ '*' ∧ c ≠ '_' ∧ c ≠ '!' := by
      intro c hc
      simp only [List.mem_cons, List.mem_append] at hc
      rcases hc with rfl | rfl | rfl | hc | rfl | hc
      · exact ⟨by decide, by decide, by decide, by decide⟩
      · exact ⟨by decide, by decide, by decide, by decide⟩
      · exact ⟨by decide, by decide, by decide, by decide⟩
      · exact ⟨(hsafe c hc).2.1, (hsafe c hc).2.2.1, (hsafe c hc).2.2.2.1,
          (hsafe c hc).2.2.2.2⟩
      · exact ⟨by decide, by decide, by decide, by decide⟩
      · exact absurd hc (List.not_mem_nil c)
    have hbrTail : '[' ∉ (']' :: '(' :: (u ++ [')'])) := by
      intro hc
      simp only [List.mem_cons, List.mem_append] at hc
      rcases hc with hc | hc | hc | hc | hc
      · exact absurd hc (by decide)
      · exact absurd hc (by decide)
      · exact (hsafe '[' hc).1 rfl
      · exact absurd hc (by decide)
      · exact absurd hc (List.not_mem_nil _)
    have himg : imageMatches ('[' :: ']' :: '(' :: (u ++ [')'])) = [] := by
      unfold imageMatches
      exact scanTop_nil _ _ _ (fun p cs' hs => tryImageAt_none_mem p cs' _ hs
        (fun hc => (hmemL '!' hc).2.2.2 rfl))
    have hlink : linkMatches ('[' :: ']' :: '(' :: (u ++ [')'])) = [] := by
      have hscan : scanFrom tryLinkAt .link ('[' :: ']' :: '(' :: (u ++ [')'])) 0
          ('[' :: ']' :: '(' :: (u ++ [')'])) = [] := by
        apply scanTop_nil
        intro p cs' hs
        rcases List.suffix_cons_iff.mp hs with rfl | hs
        · exact tryLinkAt_empty_text p _
        · exact tryLinkAt_none_mem p cs' _ hs hbrTail
      unfold linkMatches
      rw [hscan]
      rfl
    have hcode : codeMatches ('[' :: ']' :: '(' :: (u ++ [')'])) = [] := by
      unfold codeMatches
      exact scanTop_nil _ _ _ (fun p cs' hs => tryCodeAt_none_mem p cs' _ hs
        (fun hc => (hmemL btChar hc).1 rfl))
    have hbold : boldMatches ('[' :: ']' :: '(' :: (u ++ [')'])) = [] := by
      unfold boldMatches
      exact scanTop_nil _ _ _ (fun p cs' hs => tryBoldAt_none_mem p cs' _ hs
        (fun hc => (hmemL '*' hc).2.1 rfl) (fun hc => (hmemL '_' hc).2.2.1 rfl))
    have hital : ∀ earlier, italMatches ('[' :: ']' :: '(' :: (u ++ [')'])) earlier = [] := by
      intro earlier
      unfold italMatches
      rw [scanTop_nil _ _ _ (fun p cs' hs => tryItalicAt_none_mem p cs' _ hs
        (fun hc => (hmemL '*' hc).2.1 rfl) (fun hc => (hmemL '_' hc).2.2.1 rfl))]
      rfl
    have hfs : filteredSorted ('[' :: ']' :: '(' :: (u ++ [')'])) = [] := by
      unfold filteredSorted collectMatches
      rw [himg, hlink, hcode, hbold, hital]
      rfl
    unfold parseInlineElements parseInlinePos
    rw [hfs]
    have he : emitSpans ('[' :: ']' :: '(' :: (u ++ [')'])) 0 [] =
        [(Span.plain ('[' :: ']' :: '(' :: (u ++ [')'])), 0,
          ('[' :: ']' :: '(' :: (u ++ [')'])).length - 0)] := by
      simp only [emitSpans]
      rw [if_pos (by simp)]
      rfl
    rw [he]
    rfl

/-- C10 witness: instantiation of the amended image and link theorem at the
one-character url. -/
theorem inline_image_link_pattern_witness :
    (['u'] : Str) ≠ [] ∧ ')' ∉ (['u'] : Str) ∧
      parseInlineElements ['!', '[', ']', '(', 'u', ')'] = [Span.image [] ['u']] ∧
      parseInlineElements ['[', ']', '(', 'u', ')'] =
        [Span.plain ['[', ']', '(', 'u', ')']] := by
  refine ⟨by decide, by decide, ?_, ?_⟩
  · exact inline_image_link_pattern.1 ['u'] (by decide) (by decide)
  · exact inline_image_link_pattern.2.1 ['u'] (by decide)

/-! ### Spec-modelled inline pass with strikethrough

The repository's components/markdown-preview.tsx also collects
strikethrough matches; that file is not among the available sources.  The
pass below is modelled from the spec's inline algorithm: the same five
families plus strikethrough, registered between bold and italic, a
strikethrough candidate being discarded when its start falls inside an
already collected match. -/

/-- Modelled from the spec: strikethrough matches, collected like the bold
family and filtered by the start-inside-an-earlier-match test. -/
def strikeMatches (t : Str) (earlier : List RawMatch) : List RawMatch :=
  (scanFrom tryStrikeAt .strike t 0 t).filter (fun m => !startInside earlier m.index)

def specEarlier4 (t : Str) : List RawMatch :=
  imageMatches t ++ linkMatches t ++ codeMatches t ++ boldMatches t

/-- Modelled from the spec: all matches of the inline pass of
components/markdown-preview.tsx in registration order: image, link, code,
bold, strikethrough, italic. -/
def specCollectMatches (t : Str) : List RawMatch :=
  specEarlier4 t ++ strikeMatches t (specEarlier4 t) ++
    italMatches t (specEarlier4 t ++ strikeMatches t (specEarlier4 t))

def specFilteredSorted (t : Str) : List RawMatch :=
  sortByIdx (overlapFilter (sortByIdx (specCollectMatches t)))

/-- Modelled from the spec: the inline pass of
components/markdown-preview.tsx with positions: sort, filter overlaps
keeping the longer match, emit plain gaps and typed spans. -/
def specParseInlinePos (t : Str) : List (Span × Nat × Nat) :=
  if t.isEmpty then [(Span.plain [], 0, 0)]
  else
    if (emitSpans t 0 (specFilteredSorted t)).isEmpty then [(Span.plain t, 0, t.length)]
    else emitSpans t 0 (specFilteredSorted t)

def specParseInline (t : Str) : List Span := (specParseInlinePos t).map (fun x => x.1)

def isStrikeSpan : Span → Bool
  | .strike _ => true
  | _ => false

/-- C7 counterexample: in the text tilde tilde a space bracket b tilde
tilde space c bracket paren u paren, the strikethrough candidate (inner
text a space bracket b) is collected and does not start inside any
higher-priority match, yet the longer overlapping link match replaces it in
the overlap filter, so no Strikethrough span is produced. -/
theorem strike_suppressed_counterexample :
    strikeMatches ['~', '~', 'a', ' ', '[', 'b', '~', '~', ' ', 'c', ']', '(', 'u', ')']
        (specEarlier4 ['~', '~', 'a', ' ', '[', 'b', '~', '~', ' ', 'c', ']', '(', 'u', ')']) =
      [⟨.strike, 0, 8, ['a', ' ', '[', 'b'], []⟩] ∧
    specParseInline ['~', '~', 'a', ' ', '[', 'b', '~', '~', ' ', 'c', ']', '(', 'u', ')'] =
      [Span.plain ['~', '~', 'a', ' '], Span.link ['b', '~', '~', ' ', 'c'] ['u']] ∧
    (specParseInline ['~', '~', 'a', ' ', '[', 'b', '~', '~', ' ', 'c', ']', '(', 'u', ')']).all
      (fun s => !isStrikeSpan s) = true := by
  refine ⟨by decide, by decide, by decide⟩

/-- Skipping a prefix at which a scanner never fires. -/
theorem scanFrom_skip (tryAt : Option Char → List Char → Option (Nat × Str × Str))
    (tp : MType) (full : Str) :
    ∀ (p : Str) (i : Nat) (rest : Str),
      (∀ (pr : Option Char) (j : Nat), j < p.length → tryAt pr (p.drop j ++ rest) = none) →
      scanFrom tryAt tp full i (p ++ rest) = scanFrom tryAt tp full (i + p.length) rest := by
  intro p
  induction p with
  | nil => intro i rest _; simp
  | cons c cs ih =>
    intro i rest h
    have h0 : tryAt (if i = 0 then none else full[i - 1]?) (c :: (cs ++ rest)) = none := by
      have := h (if i = 0 then none else full[i - 1]?) 0 (by simp)
      simpa using this
    rw [List.cons_append, scanFrom_cons_none _ _ _ _ _ _ h0]
    rw [ih (i + 1) rest (fun pr j hj => by
      have := h pr (j + 1) (by simpa using hj)
      simpa using this)]
    have harith : i + 1 + cs.length = i + (c :: cs).length := by
      simp only [List.length_cons]
      omega
    rw [harith]

theorem drop_length_add {α : Type} (l₁ l₂ : List α) (n : Nat) :
    List.drop (l₁.length + n) (l₁ ++ l₂) = List.drop n l₂ := by
  induction l₁ with
  | nil => simp
  | cons c l₁ ih =>
    simp only [List.length_cons, List.cons_append]
    have : l₁.length + 1 + n = (l₁.length + n) + 1 := by omega
    rw [this, List.drop_succ_cons, ih]

theorem pairScan_exact (d : Char) :
    ∀ (a r : Str), d ∉ a → '\n' ∉ a → pairScan d (a ++ d :: d :: r) = some (a, r) := by
  intro a
  induction a with
  | nil =>
    intro r _ _
    simp [pairScan]
  | cons x xs ih =>
    intro r hd hn
    have hxd : ¬ x = d := by
      intro hx
      exact hd (by simp [hx])
    have hxn : ¬ x = '\n' := by
      intro hx
      exact hn (by simp [hx])
    have ihr := ih r (fun hm => hd (List.mem_cons_of_mem _ hm))
      (fun hm => hn (List.mem_cons_of_mem _ hm))
    cases xs with
    | nil =>
      simp only [List.nil_append] at ihr
      simp [pairScan, hxd, hxn, ihr]
    | cons y ys =>
      simp only [List.cons_append] at ihr ⊢
      simp [pairScan, hxd, hxn, ihr]

/-- The strikethrough attempt at the doubled tilde succeeds with the inner
content when the content is free of tildes and newlines. -/
theorem tryStrikeAt_hit (p : Option Char) (inner q : Str) (hne : inner ≠ [])
    (ht : '~' ∉ inner) (hn : '\n' ∉ inner) :
    tryStrikeAt p ('~' :: '~' :: (inner ++ '~' :: '~' :: q)) =
      some (inner.length + 4, inner, []) := by
  cases inner with
  | nil => exact absurd rfl hne
  | cons c0 in' =>
    have hc0 : ¬ c0 = '\n' := by
      intro hx
      exact hn (by simp [hx])
    have hps : pairScan '~' (in' ++ '~' :: '~' :: q) = some (in', q) :=
      pairScan_exact '~' in' q (fun hm => ht (List.mem_cons_of_mem _ hm))
        (fun hm => hn (List.mem_cons_of_mem _ hm))
    simp [tryStrikeAt, findPairEnd, hc0, hps]

/-- C7 amended: for a block text built of a strikethrough occurrence whose
content is non-empty and free of tildes and newlines, surrounded by text
free of every inline trigger character, the spec-modelled inline pass
produces a Strikethrough span holding exactly the inner content with the
tilde delimiters stripped.  (When the occurrence overlaps a longer match of
another family, the overlap filter keeps the longer match instead, so the
claim needs this non-interference proviso.) -/
theorem strike_span_produced (p inner q : Str) (hne : inner ≠ [])
    (hp : ∀ c ∈ p, c ≠ '~' ∧ c ≠ '*' ∧ c ≠ '_' ∧ c ≠ '[' ∧ c ≠ '!' ∧ c ≠ btChar)
    (hin : ∀ c ∈ inner,
      c ≠ '~' ∧ c ≠ '*' ∧ c ≠ '_' ∧ c ≠ '[' ∧ c ≠ '!' ∧ c ≠ btChar ∧ c ≠ '\n')
    (hq : ∀ c ∈ q, c ≠ '~' ∧ c ≠ '*' ∧ c ≠ '_' ∧ c ≠ '[' ∧ c ≠ '!' ∧ c ≠ btChar) :
    Span.strike inner ∈ specParseInline (p ++ '~' :: '~' :: (inner ++ '~' :: '~' :: q)) := by
  have hPmem : ∀ c ∈ (p ++ '~' :: '~' :: (inner ++ '~' :: '~' :: q)),
      c ≠ '*' ∧ c ≠ '_' ∧ c ≠ '[' ∧ c ≠ '!' ∧ c ≠ btChar := by
    intro c hc
    simp only [List.mem_append, List.mem_cons] at hc
    rcases hc with hc | rfl | rfl | hc | rfl | rfl | hc
    · exact ⟨(hp c hc).2.1, (hp c hc).2.2.1, (hp c hc).2.2.2.1, (hp c hc).2.2.2.2.1,
        (hp c hc).2.2.2.2.2⟩
    · exact ⟨by decide, by decide, by decide, by decide, by decide⟩
    · exact ⟨by decide, by decide, by decide, by decide, by decide⟩
    · exact ⟨(hin c hc).2.1, (hin c hc).2.2.1, (hin c hc).2.2.2.1, (hin c hc).2.2.2.2.1,
        (hin c hc).2.2.2.2.2.1⟩
    · exact ⟨by decide, by decide, by decide, by decide, by decide⟩
    · exact ⟨by decide, by decide, by decide, by decide, by decide⟩
    · exact ⟨(hq c hc).2.1, (hq c hc).2.2.1, (hq c hc).2.2.2.1, (hq c hc).2.2.2.2.1,
        (hq c hc).2.2.2.2.2⟩
  have hbang : '!' ∉ (p ++ '~' :: '~' :: (inner ++ '~' :: '~' :: q)) :=
    fun hc => (hPmem '!' hc).2.2.2.1 rfl
  have hbr : '[' ∉ (p ++ '~' :: '~' :: (inner ++ '~' :: '~' :: q)) :=
    fun hc => (hPmem '[' hc).2.2.1 rfl
  have hbt : btChar ∉ (p ++ '~' :: '~' :: (inner ++ '~' :: '~' :: q)) :=
    fun hc => (hPmem btChar hc).2.2.2.2 rfl
  have hstar : '*' ∉ (p ++ '~' :: '~' :: (inner ++ '~' :: '~' :: q)) :=
    fun hc => (hPmem '*' hc).1 rfl
  have hund : '_' ∉ (p ++ '~' :: '~' :: (inner ++ '~' :: '~' :: q)) :=
    fun hc => (hPmem '_' hc).2.1 rfl
  have himg : imageMatches (p ++ '~' :: '~' :: (inner ++ '~' :: '~' :: q)) = [] := by
    unfold imageMatches
    exact scanTop_nil _ _ _ (fun pr cs' hs => tryImageAt_none_mem pr cs' _ hs hbang)
  have hlink : linkMatches (p ++ '~' :: '~' :: (inner ++ '~' :: '~' :: q)) = [] := by
    unfold linkMatches
    rw [scanTop_nil _ _ _ (fun pr cs' hs => tryLinkAt_none_mem pr cs' _ hs hbr)]
    rfl
  have hcode : codeMatches (p ++ '~' :: '~' :: (inner ++ '~' :: '~' :: q)) = [] := by
    unfold codeMatches
    exact scanTop_nil _ _ _ (fun pr cs' hs => tryCodeAt_none_mem pr cs' _ hs hbt)
  have hbold : boldMatches (p ++ '~' :: '~' :: (inner ++ '~' :: '~' :: q)) = [] := by
    unfold boldMatches
    exact scanTop_nil _ _ _ (fun pr cs' hs => tryBoldAt_none_mem pr cs' _ hs hstar hund)
  have hital : ∀ e, italMatches (p ++ '~' :: '~' :: (inner ++ '~' :: '~' :: q)) e = [] := by
    intro e
    unfold italMatches
    rw [scanTop_nil _ _ _ (fun pr cs' hs => tryItalicAt_none_mem pr cs' _ hs hstar hund)]
    rfl
  have hearly : specEarlier4 (p ++ '~' :: '~' :: (inner ++ '~' :: '~' :: q)) = [] := by
    unfold specEarlier4
    rw [himg, hlink, hcode, hbold]
    rfl
  have htq : '~' ∉ q := fun hc => (hq '~' hc).1 rfl
  have hstrike : scanFrom tryStrikeAt .strike (p ++ '~' :: '~' :: (inner ++ '~' :: '~' :: q))
      0 (p ++ '~' :: '~' :: (inner ++ '~' :: '~' :: q)) =
      [⟨.strike, p.length, inner.length + 4, inner, []⟩] := by
    rw [scanFrom_skip tryStrikeAt .strike _ p 0 ('~' :: '~' :: (inner ++ '~' :: '~' :: q))]
    · rw [Nat.zero_add]
      rw [scanFrom_cons_some tryStrikeAt .strike _ p.length '~'
        ('~' :: (inner ++ '~' :: '~' :: q)) (inner.length + 4) inner []
        (tryStrikeAt_hit _ inner q hne (fun hc => (hin '~' hc).1 rfl)
          (fun hc => (hin '\n' hc).2.2.2.2.2.2 rfl))]
      have hdq : List.drop (inner.length + 4 - 1) ('~' :: (inner ++ '~' :: '~' :: q)) = q := by
        have h41 : inner.length + 4 - 1 = (inner.length + 2) + 1 := by omega
        rw [h41, List.drop_succ_cons]
        have := drop_length_add inner ('~' :: '~' :: q) 2
        rw [this]
        rfl
      rw [hdq]
      have hqnil : scanFrom tryStrikeAt .strike
          (p ++ '~' :: '~' :: (inner ++ '~' :: '~' :: q))
          (p.length + (inner.length + 4)) q = [] := by
        unfold scanFrom
        exact scanFromFuel_nil_of_none _ _ _ _ _ _
          (fun pr cs' hs => tryStrikeAt_none_mem pr cs' q hs htq)
      rw [hqnil]
    · intro pr j hj
      apply tryStrikeAt_none_head
      cases hdj : List.drop j p with
      | nil =>
        have : p.length ≤ j := by
          have := congrArg List.length hdj
          simp only [List.length_drop, List.length_nil] at this
          omega
        omega
      | cons c cs2 =>
        have hcp : c ∈ p := List.mem_of_mem_drop (hdj ▸ List.mem_cons_self c cs2)
        simp only [hdj, List.cons_append, List.head?_cons]
        intro hx
        obtain rfl : c = '~' := by simpa using hx
        exact (hp '~' hcp).1 rfl
  have hstrikeM : strikeMatches (p ++ '~' :: '~' :: (inner ++ '~' :: '~' :: q))
      (specEarlier4 (p ++ '~' :: '~' :: (inner ++ '~' :: '~' :: q))) =
      [⟨.strike, p.length, inner.length + 4, inner, []⟩] := by
    unfold strikeMatches
    rw [hstrike, hearly]
    rfl
  have hcoll : specCollectMatches (p ++ '~' :: '~' :: (inner ++ '~' :: '~' :: q)) =
      [⟨.strike, p.length, inner.length + 4, inner, []⟩] := by
    unfold specCollectMatches
    rw [hstrikeM, hearly, hital]
    rfl
  have hfs : specFilteredSorted (p ++ '~' :: '~' :: (inner ++ '~' :: '~' :: q)) =
      [⟨.strike, p.length, inner.length + 4, inner, []⟩] := by
    unfold specFilteredSorted
    rw [hcoll]
    rfl
  have hPne : (p ++ '~' :: '~' :: (inner ++ '~' :: '~' :: q)).isEmpty = false := by
    cases p with
    | nil => rfl
    | cons c cs => rfl
  have hmem_es : (Span.strike inner, p.length, inner.length + 4) ∈
      emitSpans (p ++ '~' :: '~' :: (inner ++ '~' :: '~' :: q)) 0
        [⟨.strike, p.length, inner.length + 4, inner, []⟩] := by
    simp only [emitSpans]
    exact List.mem_append_right _ (List.mem_cons_self _ _)
  unfold specParseInline specParseInlinePos
  rw [hPne, hfs]
  simp only [Bool.false_eq_true, if_false]
  split
  next hes =>
    rw [List.isEmpty_iff] at hes
    rw [hes] at hmem_es
    simp at hmem_es
  next hes =>
    exact List.mem_map.mpr ⟨_, hmem_es, rfl⟩

/-- C7 witness: instantiation of the strikethrough theorem at the concrete
text a space tilde tilde x tilde tilde space b. -/
theorem strike_span_produced_witness :
    Span.strike ['x'] ∈
      specParseInline (['a', ' '] ++ '~' :: '~' :: (['x'] ++ '~' :: '~' :: [' ', 'b'])) := by
  exact strike_span_produced ['a', ' '] ['x'] [' ', 'b'] (by decide) (by decide) (by decide)
    (by decide)

end MDSpec
